import Mathlib

/-!
# A first-fit / best-fit heap allocator (`my_malloc.c`)

Shallow embedding of the allocator of `my_malloc.c` / `my_malloc.h`.

* Memory is a total map from addresses to block headers (`block_t`); a pointer
  is a natural number below `2 ^ 64` and `NULL` is `0`.
* Every C assignment `p->f = v` is one `store` of the record at `p` with the
  field `f` replaced, in the order of the source, so aliasing between the
  pointers of a function behaves as in the source.
* `size_t`, `unsigned long` and pointer arithmetic wrap at `2 ^ 64`;
  `unsigned int` wraps at `2 ^ 32` (LP64, where `sizeof(block_t)` is 32).
* Loops that follow `next` pointers take a fuel argument and return `none`
  when it runs out; the theorems show that the length of the list is enough.
* The operating system is `sbrk` over a program break that lives between
  `brk_min` and `brk_max`.
-/

namespace MyMalloc

/-! ## Machine constants -/

/-- Number of values of a `size_t`, an `unsigned long` or a pointer (LP64). -/
def WORD : Nat := 2 ^ 64

/-- Value of `UINT_MAX` from `limits.h` (32-bit `unsigned int`). -/
def UINT_MAX : Nat := 2 ^ 32 - 1

/-- Value of `sizeof(block_t)`: an 8-byte `size_t`, a 4-byte `int` padded to 8,
and two 8-byte pointers. -/
def header_size : Nat := 32

/-- The null pointer. -/
def NULL : Nat := 0

/-- The pointer `(void*)-1` that `sbrk` returns on failure. -/
def SBRK_FAILED : Nat := 2 ^ 64 - 1

/-- Subtraction of two `size_t` (or pointer) values, wrapping at `2 ^ 64`. -/
def sub64 (a b : Nat) : Nat := (a + (WORD - b % WORD)) % WORD

/-! ## Data model -/

/-- The block header `block_t` of `my_malloc.h`. -/
structure block_t where
  size : Nat
  isFREE : Int
  next : Nat
  prev : Nat
deriving DecidableEq

/-- The state the allocator works on: the memory holding the block headers,
the globals `head` and `tail`, and the program break kept by the operating
system together with the range it may move in. -/
structure Heap where
  mem : Nat → block_t
  head : Nat
  tail : Nat
  brk : Nat
  brk_min : Nat
  brk_max : Nat

/-- Memory after writing the header `b` at address `p`. -/
def store (m : Nat → block_t) (p : Nat) (b : block_t) : Nat → block_t :=
  fun x => if x = p then b else m x

/-! ## The operating system -/

/-- The call `sbrk(increment)`: the argument is converted to `intptr_t`, so a
value of `2 ^ 63` or more is a negative increment. The call returns the old
break and moves the break, or returns `(void*)-1` and changes nothing when the
new break would leave the range `brk_min .. brk_max`. For a positive
increment (below `2 ^ 63`) this is the behaviour of the system call: the bytes
between the old and the new break are handed out. For a negative increment
the answer to a refused shrink depends on the C library, and the range check
here is only one choice; the theorems over all requests therefore take
`size + sizeof(block_t) < 2 ^ 63`, where only positive increments occur. -/
def sbrk (s : Heap) (increment : Nat) : Nat × Heap :=
  if increment < 2 ^ 63 then
    if s.brk + increment ≤ s.brk_max then (s.brk, { s with brk := s.brk + increment })
    else (SBRK_FAILED, s)
  else
    if s.brk_min + (WORD - increment) ≤ s.brk then
      (s.brk, { s with brk := s.brk - (WORD - increment) })
    else (SBRK_FAILED, s)

/-! ## The functions of `my_malloc.c` -/

/-- The `do ... while (p)` loop of `find_ff`, started at the block `p`. -/
def find_ff_loop (m : Nat → block_t) (size : Nat) : Nat → Nat → Option Nat
  | 0, _ => none
  | fuel + 1, p =>
    if (m p).isFREE = 1 ∧ (m p).size ≥ size then some p
    else if (m p).next ≠ NULL then find_ff_loop m size fuel (m p).next
    else some NULL

/-- The function `find_ff`: the first-fit search. -/
def find_ff (fuel : Nat) (s : Heap) (size : Nat) : Option Nat :=
  if s.head = NULL then some NULL else find_ff_loop s.mem size fuel s.head

/-- The `do ... while (p)` loop of `find_bf` with its locals `p`, `target` and
`difference`. A `continue` jumps to the test of the loop. The local `diff` is
an `unsigned int`, so the `size_t` difference is cut to 32 bits. -/
def find_bf_loop (m : Nat → block_t) (size : Nat) : Nat → Nat → Nat → Nat → Option Nat
  | 0, _, _, _ => none
  | fuel + 1, p, target, difference =>
    if (m p).isFREE = 0 then
      if (m p).next ≠ NULL then find_bf_loop m size fuel (m p).next target difference
      else some target
    else if (m p).size < size then
      if (m p).next ≠ NULL then find_bf_loop m size fuel (m p).next target difference
      else some target
    else if (m p).size = size then some p
    else
      let diff := sub64 (m p).size size % 2 ^ 32
      let difference1 := if diff < difference then diff else difference
      let target1 := if diff < difference then p else target
      if (m p).next ≠ NULL then find_bf_loop m size fuel (m p).next target1 difference1
      else some target1

/-- The function `find_bf`: the best-fit search. -/
def find_bf (fuel : Nat) (s : Heap) (size : Nat) : Option Nat :=
  if s.head = NULL then some NULL else find_bf_loop s.mem size fuel s.head NULL UINT_MAX

/-- The function `allocate_block`: `sbrk` is called once for the new block and
a second time in the failure test. The four stores are made at `new` as in the
source. Memory is a total function here, so a store into bytes that `sbrk` did
not hand out is not a fault in this model; that can only happen when
`size + sizeof(block_t)` wraps around or is `2 ^ 63` or more, and for
`size + sizeof(block_t) < 2 ^ 63` the header lies inside the bytes obtained by
the first call. -/
def allocate_block (s : Heap) (size : Nat) : Nat × Heap :=
  let r1 := sbrk s ((size + header_size) % WORD)
  let new := r1.1
  let r2 := sbrk r1.2 ((size + header_size) % WORD)
  if r2.1 = SBRK_FAILED then (NULL, r2.2)
  else
    let m1 := store r2.2.mem new { r2.2.mem new with next := NULL }
    let m2 := store m1 new { m1 new with prev := NULL }
    let m3 := store m2 new { m2 new with size := size }
    let m4 := store m3 new { m3 new with isFREE := 0 }
    (new, { r2.2 with mem := m4 })

/-- The function `split_block`. -/
def split_block (s : Heap) (p size : Nat) : Nat × Heap :=
  let new := (p + size + header_size) % WORD
  let m1 := store s.mem new
    { s.mem new with size := sub64 (sub64 (s.mem p).size size) header_size }
  let m2 := store m1 new { m1 new with isFREE := 1 }
  let m3 := store m2 new { m2 new with next := (m2 p).next }
  let m4 := store m3 new { m3 new with prev := p }
  let m5 := store m4 p { m4 p with next := new }
  let m6 := store m5 p { m5 p with size := size }
  let m7 := store m6 p { m6 p with isFREE := 0 }
  if (m7 new).next = NULL then (p, { s with mem := m7, tail := new })
  else
    (p, { s with mem := store m7 (m7 new).next { m7 (m7 new).next with prev := new } })

/-- The part of `ff_malloc` and `bf_malloc` after the search has returned
`curr` (the `else` branch of the test `!head && !tail`). -/
def place (s : Heap) (size curr : Nat) : Nat × Heap :=
  if curr ≠ NULL then
    if (s.mem curr).size ≥ (size + header_size) % WORD then
      let r := split_block s curr size
      ((r.1 + header_size) % WORD, r.2)
    else
      ((curr + header_size) % WORD,
        { s with mem := store s.mem curr { s.mem curr with isFREE := 0 } })
  else
    let r := allocate_block s size
    if r.1 = NULL then (NULL, r.2)
    else
      let m1 := store r.2.mem r.2.tail { r.2.mem r.2.tail with next := r.1 }
      let m2 := store m1 r.1 { m1 r.1 with prev := r.2.tail }
      ((r.1 + header_size) % WORD, { r.2 with mem := m2, tail := r.1 })

/-- The first branch of `ff_malloc` and `bf_malloc`, taken when `head` and
`tail` are both null. -/
def first_block (s : Heap) (size : Nat) : Nat × Heap :=
  let r := allocate_block s size
  let s1 := { r.2 with head := r.1 }
  if s1.head = NULL then (NULL, s1)
  else ((s1.head + header_size) % WORD, { s1 with tail := s1.head })

/-- The function `ff_malloc`. The result is the returned pointer and the new
state, or `none` when the search runs out of fuel. -/
def ff_malloc (fuel : Nat) (s : Heap) (size : Nat) : Option (Nat × Heap) :=
  if size = 0 then some (NULL, s)
  else if s.head = NULL ∧ s.tail = NULL then some (first_block s size)
  else
    match find_ff fuel s size with
    | none => none
    | some curr => some (place s size curr)

/-- The function `bf_malloc`. -/
def bf_malloc (fuel : Nat) (s : Heap) (size : Nat) : Option (Nat × Heap) :=
  if size = 0 then some (NULL, s)
  else if s.head = NULL ∧ s.tail = NULL then some (first_block s size)
  else
    match find_bf fuel s size with
    | none => none
    | some curr => some (place s size curr)

/-- The forward half of `merge_block`: absorb `target->next` when it is free. -/
def merge_next (s : Heap) (target nextOne : Nat) : Heap :=
  if nextOne ≠ NULL ∧ (s.mem nextOne).isFREE = 1 then
    let m1 := store s.mem target
      { s.mem target with
        size := ((s.mem target).size + (s.mem nextOne).size + header_size) % WORD }
    let m2 := store m1 target { m1 target with next := (m1 nextOne).next }
    if (m2 target).next ≠ NULL then
      { s with mem := store m2 (m2 target).next { m2 (m2 target).next with prev := target } }
    else { s with mem := m2, tail := target }
  else s

/-- The backward half of `merge_block`: absorb `target` into `target->prev`
when that block is free. -/
def merge_prev (s : Heap) (target previous : Nat) : Heap :=
  if previous ≠ NULL ∧ (s.mem previous).isFREE = 1 then
    let m1 := store s.mem previous
      { s.mem previous with
        size := ((s.mem previous).size + (s.mem target).size + header_size) % WORD }
    let m2 := store m1 previous { m1 previous with next := (m1 target).next }
    if (m2 previous).next ≠ NULL then
      { s with
        mem := store m2 (m2 previous).next { m2 (m2 previous).next with prev := previous } }
    else { s with mem := m2, tail := previous }
  else s

/-- The function `merge_block`: `previous` and `nextOne` are read before the
first merge. -/
def merge_block (s : Heap) (target : Nat) : Heap :=
  if target = NULL then s
  else
    let previous := (s.mem target).prev
    let nextOne := (s.mem target).next
    merge_prev (merge_next s target nextOne) target previous

/-- The function `free_blocks`. -/
def free_blocks (s : Heap) (p : Nat) : Heap :=
  if p = NULL then s
  else
    let target := sub64 p header_size
    merge_block { s with mem := store s.mem target { s.mem target with isFREE := 1 } } target

/-- The function `ff_free`. -/
def ff_free (s : Heap) (p : Nat) : Heap := free_blocks s p

/-- The function `bf_free`. -/
def bf_free (s : Heap) (p : Nat) : Heap := free_blocks s p

/-- The `while (curr != NULL)` loop of `get_total_free_size` with its locals
`curr` and `res` (an `unsigned long`). -/
def get_total_free_size_loop (m : Nat → block_t) : Nat → Nat → Nat → Option Nat
  | 0, curr, res => if curr = NULL then some res else none
  | fuel + 1, curr, res =>
    if curr = NULL then some res
    else
      get_total_free_size_loop m fuel (m curr).next
        (if (m curr).isFREE = 1 then (res + (header_size + (m curr).size)) % WORD else res)

/-- The function `get_total_free_size`. It reads the state and writes nothing. -/
def get_total_free_size (fuel : Nat) (s : Heap) : Option Nat :=
  get_total_free_size_loop s.mem fuel s.head 0

/-- The `while (p != NULL)` loop of `get_largest_free_data_segment_size`. -/
def get_largest_loop (m : Nat → block_t) : Nat → Nat → Nat → Option Nat
  | 0, p, size => if p = NULL then some size else none
  | fuel + 1, p, size =>
    if p = NULL then some size
    else get_largest_loop m fuel (m p).next (if (m p).size > size then (m p).size else size)

/-- The function `get_largest_free_data_segment_size`. -/
def get_largest_free_data_segment_size (fuel : Nat) (s : Heap) : Option Nat :=
  get_largest_loop s.mem fuel s.head 0

/-! ## The block list seen from outside

A list `L` of `Blk` values describes the linked list that starts at `head`:
the address, payload size and free flag of every block, from `head` to `tail`.
`Rep s L` says that the memory of `s` holds exactly this doubly linked list. -/

/-- One block of the list: its address, its payload size and its free flag. -/
structure Blk where
  addr : Nat
  size : Nat
  isFREE : Int
deriving DecidableEq

/-- Address of the first block of `L`, or `r` when `L` is empty. -/
def hd (L : List Blk) (r : Nat) : Nat :=
  match L with
  | [] => r
  | x :: _ => x.addr

/-- Address of the last block of `L`, or `q` when `L` is empty. -/
def lastAddr (q : Nat) : List Blk → Nat
  | [] => q
  | x :: L => lastAddr x.addr L

/-- The blocks of `L` are linked in memory one after the other: the header at
each address holds the size and flag of the block, its `next` is the address of
the following block (`r` after the last one) and its `prev` the address of the
block before (`q` before the first one). No block sits at `NULL`. -/
def Seg (m : Nat → block_t) : Nat → List Blk → Nat → Prop
  | _, [], _ => True
  | q, x :: L, r =>
    x.addr ≠ NULL ∧ m x.addr = ⟨x.size, x.isFREE, hd L r, q⟩ ∧ Seg m x.addr L r

/-- The state `s` holds the block list `L`: `head` is its first block, `tail`
its last block (both `NULL` for the empty list), and the blocks are doubly
linked from `NULL` to `NULL`. -/
def Rep (s : Heap) (L : List Blk) : Prop :=
  Seg s.mem NULL L NULL ∧ s.head = hd L NULL ∧ s.tail = lastAddr NULL L

/-- Following `next` from the pointer `p` visits exactly the addresses `l`, in
this order, and then reaches `NULL`. -/
def Chain (m : Nat → block_t) : Nat → List Nat → Prop
  | p, [] => p = NULL
  | p, a :: l => p = a ∧ a ≠ NULL ∧ Chain m (m a).next l

/-- A block that a search for `size` bytes may return. -/
def Fits (size : Nat) (x : Blk) : Prop := x.isFREE = 1 ∧ size ≤ x.size

/-- Every block (header and payload) ends at or before the address of the next
block of the list, and the last block ends at or before `e`. -/
def Layout : List Blk → Nat → Prop
  | [], _ => True
  | x :: L, e => x.addr + header_size + x.size ≤ hd L e ∧ Layout L e

/-- No free block is followed by a free block. -/
def NoAdjFree (L : List Blk) : Prop :=
  List.Chain' (fun x y => ¬ (x.isFREE = 1 ∧ y.isFREE = 1)) L

/-- The payload pointers of the blocks of `L` that are in use (flag 0). -/
def payloads (L : List Blk) : List Nat :=
  (L.filter (fun x => decide (x.isFREE = 0))).map (fun x => x.addr + header_size)


/-- A well-formed state: it holds the list `L`, the blocks do not overlap and
lie below the program break, every flag is 0 or 1, and the break is a non-null
address in its range, which ends at least one header below the top of the
address space. -/
structure WF (s : Heap) (L : List Blk) : Prop where
  rep : Rep s L
  layout : Layout L s.brk
  flags : ∀ x ∈ L, x.isFREE = 0 ∨ x.isFREE = 1
  brk_pos : 0 < s.brk
  brk_ge : s.brk_min ≤ s.brk
  brk_le : s.brk ≤ s.brk_max
  brk_max_lt : s.brk_max + header_size < WORD

instance instDecidableSeg (m : Nat → block_t) (q : Nat) (L : List Blk) (r : Nat) :
    Decidable (Seg m q L r) := by
  induction L generalizing q with
  | nil => exact isTrue trivial
  | cons x L ih =>
    exact decidable_of_iff
      (x.addr ≠ NULL ∧ m x.addr = ⟨x.size, x.isFREE, hd L r, q⟩ ∧ Seg m x.addr L r) Iff.rfl

instance instDecidableLayout (L : List Blk) (e : Nat) : Decidable (Layout L e) := by
  induction L with
  | nil => exact isTrue trivial
  | cons x L ih =>
    exact decidable_of_iff (x.addr + header_size + x.size ≤ hd L e ∧ Layout L e) Iff.rfl

instance instDecidableChain (m : Nat → block_t) (p : Nat) (l : List Nat) :
    Decidable (Chain m p l) := by
  induction l generalizing p with
  | nil => exact decidable_of_iff (p = NULL) Iff.rfl
  | cons a l ih => exact decidable_of_iff (p = a ∧ a ≠ NULL ∧ Chain m (m a).next l) Iff.rfl

instance instDecidableRep (s : Heap) (L : List Blk) : Decidable (Rep s L) := by
  unfold Rep
  infer_instance

instance instDecidableFits (size : Nat) (x : Blk) : Decidable (Fits size x) := by
  unfold Fits
  infer_instance

instance instDecidableWF (s : Heap) (L : List Blk) : Decidable (WF s L) :=
  decidable_of_iff
    (Rep s L ∧ Layout L s.brk ∧ (∀ x ∈ L, x.isFREE = 0 ∨ x.isFREE = 1) ∧ 0 < s.brk ∧
      s.brk_min ≤ s.brk ∧ s.brk ≤ s.brk_max ∧ s.brk_max + header_size < WORD)
    ⟨fun h => ⟨h.1, h.2.1, h.2.2.1, h.2.2.2.1, h.2.2.2.2.1, h.2.2.2.2.2.1, h.2.2.2.2.2.2⟩,
      fun h => ⟨h.rep, h.layout, h.flags, h.brk_pos, h.brk_ge, h.brk_le, h.brk_max_lt⟩⟩

/-! ## Example states -/

/-- Memory with the given headers at the given addresses and zeroes elsewhere. -/
def mem_of (cells : List (Nat × block_t)) : Nat → block_t :=
  fun a => ((cells.find? (fun c => c.1 = a)).map (fun c => c.2)).getD ⟨0, 0, 0, 0⟩

/-- Three free blocks of sizes 10, 50 and 20 at ascending addresses. -/
def free3 : Heap :=
  { mem := mem_of [(4096, ⟨10, 1, 4138, 0⟩), (4138, ⟨50, 1, 4220, 4096⟩), (4220, ⟨20, 1, 0, 4138⟩)]
    head := 4096, tail := 4220, brk := 4272, brk_min := 4096, brk_max := 2 ^ 40 }

/-- The block list of `free3`. -/
def free3_blocks : List Blk := [⟨4096, 10, 1⟩, ⟨4138, 50, 1⟩, ⟨4220, 20, 1⟩]

/-! ## Call sequences -/

/-- A call of the public interface; the allocation calls carry the fuel given
to their search loop. -/
inductive Call
  | ff_malloc (fuel size : Nat)
  | bf_malloc (fuel size : Nat)
  | ff_free (p : Nat)
  | bf_free (p : Nat)

/-- One call on a state and the list of live pointers (returned by an
allocation and not released since). An allocation must ask for fewer than `B`
bytes and its search must end; a release must be given a live pointer. -/
def step (B : Nat) (c : Call) (σ : Heap × List Nat) : Option (Heap × List Nat) :=
  match c with
  | .ff_malloc fuel size =>
    if size < B then
      (ff_malloc fuel σ.1 size).map (fun r => (r.2, if r.1 = NULL then σ.2 else r.1 :: σ.2))
    else none
  | .bf_malloc fuel size =>
    if size < B then
      (bf_malloc fuel σ.1 size).map (fun r => (r.2, if r.1 = NULL then σ.2 else r.1 :: σ.2))
    else none
  | .ff_free p => if p ∈ σ.2 then some (ff_free σ.1 p, σ.2.erase p) else none
  | .bf_free p => if p ∈ σ.2 then some (bf_free σ.1 p, σ.2.erase p) else none

/-- A sequence of calls, from left to right. -/
def run (B : Nat) : List Call → Heap × List Nat → Option (Heap × List Nat)
  | [], σ => some σ
  | c :: cs, σ => (step B c σ).bind (run B cs)

/-- The arena before the first allocation: `head` and `tail` are null and the
program break is a non-null address inside its range, which ends at least one
header below the top of the address space. -/
def EmptyArena (s : Heap) : Prop :=
  s.head = NULL ∧ s.tail = NULL ∧ 0 < s.brk ∧ s.brk_min ≤ s.brk ∧ s.brk ≤ s.brk_max ∧
    s.brk_max + header_size < WORD

instance instDecidableEmptyArena (s : Heap) : Decidable (EmptyArena s) := by
  unfold EmptyArena
  infer_instance

/-- The state `s`, with live pointers `live`, is reached from an empty arena
by allocation calls of fewer than `B` bytes each and releases of live
pointers. With `B = WORD` every `size_t` request is allowed. -/
def Reach (B : Nat) (s : Heap) (live : List Nat) : Prop :=
  ∃ s0 calls, EmptyArena s0 ∧ run B calls (s0, []) = some (s, live)

/-- Requests below this limit have `size + sizeof(block_t) < 2 ^ 63`, so that
`sbrk` is called with a positive increment. -/
def REQUEST_LIMIT : Nat := 2 ^ 63 - header_size

/-- An empty arena with the break at 4096. -/
def arena0 : Heap :=
  { mem := fun _ => ⟨0, 0, 0, 0⟩, head := NULL, tail := NULL, brk := 4096, brk_min := 4096,
    brk_max := 2 ^ 40 }

/-- The state and live pointers after the calls `cs` on `arena0`, each
allocation asking for fewer than `B` bytes. -/
def after (B : Nat) (cs : List Call) : Heap × List Nat :=
  (run B cs (arena0, [])).getD (arena0, [])

/-- Calls that leave a free block of size `2 ^ 32 + 16` at 4096 and a free
block of size 20 further up, separated by live blocks. -/
def bf_calls : List Call :=
  [.bf_malloc 0 (2 ^ 32 + 16), .bf_malloc 1 1, .bf_malloc 2 20, .bf_malloc 3 1,
    .bf_free 4128, .bf_free 8589938882]

/-- Calls that leave one free block of size `2 ^ 32 + 14` below a live block. -/
def bf_calls_miss : List Call :=
  [.bf_malloc 0 (2 ^ 32 + 14), .bf_malloc 1 1, .bf_free 4128]

/-- The block `a` absorbs the block `b` that follows it: the assignments shared
by the two halves of `merge_block`. -/
def absorb (s : Heap) (a b : Nat) : Heap :=
  let m1 := store s.mem a
    { s.mem a with size := ((s.mem a).size + (s.mem b).size + header_size) % WORD }
  let m2 := store m1 a { m1 a with next := (m1 b).next }
  if (m2 a).next ≠ NULL then
    { s with mem := store m2 (m2 a).next { m2 (m2 a).next with prev := a } }
  else { s with mem := m2, tail := a }

/-- The blocks of `L` sit at pairwise different addresses. -/
def Distinct (L : List Blk) : Prop := L.Pairwise (fun x y => x.addr ≠ y.addr)

/-- The forward merge seen on the list: the released block `t`, followed by
the blocks `L2`, becomes the free block `u` followed by `S`. The successor is
absorbed exactly when it exists and is free. -/
def Fwd (t : Blk) (L2 : List Blk) (u : Blk) (S : List Blk) : Prop :=
  (S = L2 ∧ u = ⟨t.addr, t.size, 1⟩ ∧ ∀ c ∈ L2.head?, c.isFREE ≠ 1) ∨
    ∃ c, L2 = c :: S ∧ c.isFREE = 1 ∧ u = ⟨t.addr, t.size + c.size + header_size, 1⟩

/-- The backward merge seen on the list: the blocks `L1` followed by the free
block `u` become `P` followed by the free block `M`. The predecessor absorbs
`u` exactly when it exists and is free. -/
def Bwd (L1 : List Blk) (u : Blk) (P : List Blk) (M : Blk) : Prop :=
  (P = L1 ∧ M = u ∧ ∀ a ∈ L1.getLast?, a.isFREE ≠ 1) ∨
    ∃ a, L1 = P ++ [a] ∧ a.isFREE = 1 ∧ M = ⟨a.addr, a.size + u.size + header_size, 1⟩

/-- The invariant of the call sequences: the state is well formed for some
block list `L`, no two neighbours of `L` are both free, and the live pointers
are the payload pointers of the blocks in use. -/
def Inv (σ : Heap × List Nat) : Prop :=
  ∃ L, WF σ.1 L ∧ NoAdjFree L ∧ List.Perm σ.2 (payloads L)

/-- The three ways an allocation of `size > 0` bytes proceeds on the list `L`:
the first block of an empty arena, a search miss on a non-empty list, or a
search hit on a free block `x` that is large enough. -/
def Chosen (s : Heap) (L : List Blk) (size : Nat) (r : Nat × Heap) : Prop :=
  (L = [] ∧ r = first_block s size) ∨ (L ≠ [] ∧ r = place s size NULL) ∨
    ∃ L1 x L2, L = L1 ++ x :: L2 ∧ x.isFREE = 1 ∧ size ≤ x.size ∧ r = place s size x.addr

/-- The sum of `size + sizeof(block_t)` over the blocks of `L` marked free. -/
def free_bytes (L : List Blk) : Nat :=
  ((L.filter (fun x => decide (x.isFREE = 1))).map (fun x => x.size + header_size)).sum

/-- Two small allocations from the empty arena. -/
def gap_calls : List Call := [.ff_malloc 0 8, .ff_malloc 1 8]

/-- An allocation whose `size + sizeof(block_t)` wraps around to 16, followed
by a small one. -/
def overlap_calls : List Call := [.ff_malloc 0 (2 ^ 64 - 16), .ff_malloc 1 8]

/-- A small block, then a block whose `size + sizeof(block_t)` wraps around to
16, which is released again. -/
def wrap_calls : List Call := [.ff_malloc 0 8, .ff_malloc 1 (2 ^ 64 - 16), .ff_free 4208]

/-- Two small blocks and a block whose `size + sizeof(block_t)` wraps around;
the first and the last are released and the last one is then split by a
request whose remainder lands on the second block. -/
def adjacent_calls : List Call :=
  [.ff_malloc 0 8, .ff_malloc 1 8, .ff_malloc 2 (2 ^ 64 - 16), .ff_free 4128, .ff_free 4288,
    .ff_malloc 3 (2 ^ 64 - 112)]

/-- One block whose `size + sizeof(block_t)` wraps around, released again. -/
def huge_calls : List Call := [.ff_malloc 0 (2 ^ 64 - 16), .ff_free 4128]

/-- A short ordinary call sequence: a block of 100 bytes is allocated, then a
block of 8 bytes; the first is released and split by a request of 10 bytes. -/
def demo_calls : List Call :=
  [.ff_malloc 0 100, .bf_malloc 1 8, .ff_free 4128, .bf_malloc 2 10]

/-- Four blocks of 8 bytes, the first and the third released. -/
def sandwich_calls : List Call :=
  [.ff_malloc 0 8, .ff_malloc 1 8, .ff_malloc 2 8, .ff_malloc 3 8, .ff_free 4128,
    .ff_free 4288]

/-- One block of 100 bytes, released again. -/
def single_calls : List Call := [.ff_malloc 0 100, .ff_free 4128]

/-- The state after the calls `wrap_calls` and one more first-fit allocation,
of `2 ^ 64 - 112` bytes. -/
def wrap_post : Heap :=
  ((ff_malloc 2 (after WORD wrap_calls).1 (2 ^ 64 - 112)).getD (NULL, arena0)).2

/-- The largest `size` among the blocks of `L`, whatever their flag; 0 for the
empty list. -/
def largest (L : List Blk) : Nat := L.foldr (fun x acc => max x.size acc) 0

/-- A block of 100 bytes and a block of 8 bytes; the second is released. -/
def mixed_calls : List Call := [.ff_malloc 0 100, .ff_malloc 1 8, .ff_free 4392]

/-- An allocation whose `size + sizeof(block_t)` wraps around to 0, followed
by a small one. -/
def cycle_calls : List Call := [.ff_malloc 0 (2 ^ 64 - 32), .ff_malloc 1 8]

/-- An empty arena with the break at 4096 and room for 54 more bytes. -/
def tight_arena : Heap :=
  { mem := fun _ => ⟨0, 0, 0, 0⟩, head := NULL, tail := NULL, brk := 4096, brk_min := 4096,
    brk_max := 4150 }

/-- The state after `single_calls` and one more first-fit allocation, of 68
bytes. -/
def zero_post : Heap :=
  ((ff_malloc 1 (after REQUEST_LIMIT single_calls).1 68).getD (NULL, arena0)).2

/-! ## Basic facts about `Seg` -/

theorem hd_append (L1 L2 : List Blk) (r : Nat) : hd (L1 ++ L2) r = hd L1 (hd L2 r) := by
  cases L1 <;> rfl

theorem lastAddr_append (q : Nat) (L1 L2 : List Blk) :
    lastAddr q (L1 ++ L2) = lastAddr (lastAddr q L1) L2 := by
  induction L1 generalizing q with
  | nil => rfl
  | cons x L1 ih => simpa [lastAddr] using ih x.addr

theorem seg_cons (m : Nat → block_t) (x : Blk) (L : List Blk) (q r : Nat) :
    Seg m q (x :: L) r ↔
      x.addr ≠ NULL ∧ m x.addr = ⟨x.size, x.isFREE, hd L r, q⟩ ∧ Seg m x.addr L r :=
  Iff.rfl

theorem seg_append (m : Nat → block_t) (L1 L2 : List Blk) (q r : Nat) :
    Seg m q (L1 ++ L2) r ↔ Seg m q L1 (hd L2 r) ∧ Seg m (lastAddr q L1) L2 r := by
  induction L1 generalizing q with
  | nil => simp [Seg, lastAddr]
  | cons x L1 ih =>
    rw [List.cons_append, seg_cons, seg_cons, ih, hd_append]
    simp only [lastAddr]
    tauto

theorem seg_congr {m m1 : Nat → block_t} {L : List Blk} {q r : Nat}
    (h : ∀ x ∈ L, m1 x.addr = m x.addr) (hs : Seg m q L r) : Seg m1 q L r := by
  induction L generalizing q with
  | nil => trivial
  | cons x L ih =>
    obtain ⟨h0, hx, hL⟩ := hs
    refine ⟨h0, ?_, ih (fun y hy => h y (List.mem_cons_of_mem _ hy)) hL⟩
    rw [h x (List.mem_cons_self _ _)]
    exact hx

theorem seg_mem {m : Nat → block_t} {L : List Blk} {q r : Nat} (hs : Seg m q L r)
    {x : Blk} (hx : x ∈ L) :
    x.addr ≠ NULL ∧ (m x.addr).size = x.size ∧ (m x.addr).isFREE = x.isFREE := by
  induction L generalizing q with
  | nil => cases hx
  | cons y L ih =>
    obtain ⟨h0, hy, hL⟩ := hs
    rcases List.mem_cons.1 hx with rfl | hx
    · exact ⟨h0, by rw [hy], by rw [hy]⟩
    · exact ih hL hx

/-- Changing only the `prev` of the first block of a segment. -/
theorem seg_reprev {m m1 : Nat → block_t} {y : Blk} {L : List Blk} {q q1 r : Nat}
    (hs : Seg m q (y :: L) r) (hy : m1 y.addr = { m y.addr with prev := q1 })
    (h : ∀ x ∈ L, m1 x.addr = m x.addr) : Seg m1 q1 (y :: L) r := by
  obtain ⟨h0, hm, hL⟩ := hs
  refine ⟨h0, ?_, seg_congr h hL⟩
  rw [hy, hm]

/-! ## First-fit search -/

theorem find_ff_loop_spec (m : Nat → block_t) (size : Nat) (L : List Blk) :
    ∀ (x : Blk) (q fuel : Nat), Seg m q (x :: L) NULL → (x :: L).length ≤ fuel →
      ∃ r, find_ff_loop m size fuel x.addr = some r ∧
        ((r = NULL ∧ ∀ y ∈ x :: L, ¬ Fits size y) ∨
          ∃ L1 y L2, x :: L = L1 ++ y :: L2 ∧ r = y.addr ∧ Fits size y ∧
            ∀ z ∈ L1, ¬ Fits size z) := by
  induction L with
  | nil =>
    intro x q fuel hs hf
    obtain ⟨_, hx, _⟩ := hs
    obtain ⟨f, rfl⟩ : ∃ f, fuel = f + 1 := ⟨fuel - 1, by simp at hf; omega⟩
    by_cases hfit : Fits size x
    · refine ⟨x.addr, ?_, Or.inr ⟨[], x, [], rfl, rfl, hfit, by simp⟩⟩
      have h2 := hfit
      unfold Fits at h2
      simp [find_ff_loop, hx, h2]
    · refine ⟨NULL, ?_, Or.inl ⟨rfl, by simpa using hfit⟩⟩
      have h2 := hfit
      unfold Fits at h2
      simp only [find_ff_loop, hx, hd, ge_iff_le, h2, if_false, ne_eq, not_true_eq_false]
  | cons y L ih =>
    intro x q fuel hs hf
    obtain ⟨_, hx, hL⟩ := hs
    obtain ⟨f, rfl⟩ : ∃ f, fuel = f + 1 := ⟨fuel - 1, by simp at hf; omega⟩
    by_cases hfit : Fits size x
    · refine ⟨x.addr, ?_, Or.inr ⟨[], x, y :: L, rfl, rfl, hfit, by simp⟩⟩
      have h2 := hfit
      unfold Fits at h2
      simp [find_ff_loop, hx, h2]
    · obtain ⟨r, hr, hcase⟩ := ih y x.addr f hL (by simpa using hf)
      have hy0 : y.addr ≠ NULL := hL.1
      refine ⟨r, ?_, ?_⟩
      · have h2 := hfit
        unfold Fits at h2
        simp only [find_ff_loop, hx, hd, ge_iff_le, h2, if_false, ne_eq, hy0, not_false_eq_true,
          if_true, hr]
      · rcases hcase with ⟨h0, hnone⟩ | ⟨L1, z, L2, hsplit, hz, hzfit, hbefore⟩
        · refine Or.inl ⟨h0, ?_⟩
          intro w hw
          rcases List.mem_cons.1 hw with rfl | hw
          · exact hfit
          · exact hnone w hw
        · refine Or.inr ⟨x :: L1, z, L2, by rw [hsplit]; rfl, hz, hzfit, ?_⟩
          intro w hw
          rcases List.mem_cons.1 hw with rfl | hw
          · exact hfit
          · exact hbefore w hw

/-- The first-fit search on a block list: the result is the first block that
fits, and `NULL` exactly when no block fits. -/
theorem find_ff_spec (s : Heap) (L : List Blk) (size fuel : Nat) (hrep : Rep s L)
    (hfuel : L.length ≤ fuel) :
    ∃ r, find_ff fuel s size = some r ∧
      (r = NULL ↔ ∀ x ∈ L, ¬ Fits size x) ∧
      (r ≠ NULL → ∃ L1 x L2, L = L1 ++ x :: L2 ∧ r = x.addr ∧ Fits size x ∧
        ∀ y ∈ L1, ¬ Fits size y) := by
  obtain ⟨hseg, hhead, _⟩ := hrep
  cases L with
  | nil =>
    refine ⟨NULL, ?_, by simp, by simp⟩
    simp [find_ff, hhead, hd]
  | cons x L =>
    have hx0 : x.addr ≠ NULL := hseg.1
    obtain ⟨r, hr, hcase⟩ := find_ff_loop_spec s.mem size L x NULL fuel hseg hfuel
    refine ⟨r, ?_, ?_, ?_⟩
    · simp only [find_ff, hhead, hd, hx0, if_false, hr]
    · rcases hcase with ⟨h0, hnone⟩ | ⟨L1, z, L2, hsplit, hz, hzfit, _⟩
      · exact ⟨fun _ => hnone, fun _ => h0⟩
      · have hzmem : z ∈ x :: L := by rw [hsplit]; simp
        have hz0 := (seg_mem hseg hzmem).1
        constructor
        · intro h0; exact absurd (hz ▸ h0) hz0
        · intro hnone; exact absurd hzfit (hnone z hzmem)
    · intro hne
      rcases hcase with ⟨h0, _⟩ | h
      · exact absurd h0 hne
      · exact h

/-- C1. First-fit search. On every block list and for every requested size,
`find_ff` returns (with fuel for one loop round per block) the first block
from `head` to `tail` that is free and has `size >= requested`, and it returns
`NULL` exactly when no block of the list is free with `size >= requested`; the
empty list gives `NULL`. -/
theorem find_ff_first_fit (s : Heap) (L : List Blk) (size fuel : Nat) (hrep : Rep s L)
    (hfuel : L.length ≤ fuel) :
    ∃ r, find_ff fuel s size = some r ∧
      (r = NULL ↔ ∀ x ∈ L, ¬ Fits size x) ∧
      (r ≠ NULL → ∃ L1 x L2, L = L1 ++ x :: L2 ∧ r = x.addr ∧ Fits size x ∧
        ∀ y ∈ L1, ¬ Fits size y) :=
  find_ff_spec s L size fuel hrep hfuel

/-- Witness for C1: with free blocks of sizes 10, 50 and 20 and a request of
15 bytes, `find_ff` returns the block of size 50 at address 4138. -/
theorem find_ff_first_fit_witness :
    Rep free3 free3_blocks ∧ find_ff 3 free3 15 = some 4138 ∧
      ∃ r, find_ff 3 free3 15 = some r ∧
        (r = NULL ↔ ∀ x ∈ free3_blocks, ¬ Fits 15 x) ∧
        (r ≠ NULL → ∃ L1 x L2, free3_blocks = L1 ++ x :: L2 ∧ r = x.addr ∧ Fits 15 x ∧
          ∀ y ∈ L1, ¬ Fits 15 y) :=
  ⟨by decide, by decide, find_ff_first_fit free3 free3_blocks 15 3 (by decide) (by decide)⟩

/-! ## Best-fit search at its failing inputs -/

theorem run_after (B : Nat) (cs : List Call) (h : (run B cs (arena0, [])).isSome = true) :
    run B cs (arena0, []) = some ((after B cs).1, (after B cs).2) := by
  unfold after
  cases hr : run B cs (arena0, []) with
  | none => rw [hr] at h; cases h
  | some σ => rfl

theorem reach_after (B : Nat) (cs : List Call) (h : (run B cs (arena0, [])).isSome = true) :
    Reach B (after B cs).1 (after B cs).2 :=
  ⟨arena0, cs, by decide, run_after B cs h⟩

/-- C2, evaluated at its failing input. After `bf_calls` the list has a free
block of size `2 ^ 32 + 16` at 4096 and a free block of size 20 at 8589938850.
For a request of 15 bytes the wastes are `2 ^ 32 + 1` and 5, but the
`unsigned int` local `diff` holds 1 for the first block, so `find_bf` returns
the block at 4096 and not the block of minimal waste. On small sizes the
search is right: on `free3` (sizes 10, 50, 20) it returns the block of size 20. -/
theorem find_bf_truncated_waste :
    Reach WORD (after WORD bf_calls).1 (after WORD bf_calls).2 ∧
      Rep (after WORD bf_calls).1
        [⟨4096, 2 ^ 32 + 16, 1⟩, ⟨8589938784, 1, 0⟩, ⟨8589938850, 20, 1⟩, ⟨8589938954, 1, 0⟩] ∧
      find_bf 4 (after WORD bf_calls).1 15 = some 4096 ∧
      find_bf 3 free3 15 = some 4220 :=
  ⟨reach_after _ _ (by decide), by decide, by decide, by decide⟩

/-- C3, evaluated at its failing input. After `bf_calls_miss` the list has a
free block of size `2 ^ 32 + 14` at 4096. It fits a request of 15 bytes with
waste `2 ^ 32 - 1`, which the `unsigned int` local `diff` holds as `UINT_MAX`;
the test `diff < difference` fails against the initial `UINT_MAX` and
`find_bf` returns `NULL`. -/
theorem find_bf_misses_block :
    Reach WORD (after WORD bf_calls_miss).1 (after WORD bf_calls_miss).2 ∧
      Rep (after WORD bf_calls_miss).1 [⟨4096, 2 ^ 32 + 14, 1⟩, ⟨8589938780, 1, 0⟩] ∧
      Fits 15 ⟨4096, 2 ^ 32 + 14, 1⟩ ∧
      find_bf 2 (after WORD bf_calls_miss).1 15 = some NULL :=
  ⟨reach_after _ _ (by decide), by decide, by decide, by decide⟩

/-! ## Memory updates -/

@[simp] theorem store_same (m : Nat → block_t) (p : Nat) (b : block_t) : store m p b p = b := by
  simp [store]

theorem store_other (m : Nat → block_t) {p x : Nat} (b : block_t) (h : x ≠ p) :
    store m p b x = m x := by
  simp [store, h]

theorem distinct_mid {L1 L2 : List Blk} {x : Blk} (h : Distinct (L1 ++ x :: L2)) :
    (∀ y ∈ L1, y.addr ≠ x.addr) ∧ (∀ y ∈ L2, y.addr ≠ x.addr) ∧
      (∀ y ∈ L1, ∀ z ∈ L2, y.addr ≠ z.addr) ∧ Distinct L1 ∧ Distinct L2 := by
  unfold Distinct at *
  rw [List.pairwise_append, List.pairwise_cons] at h
  obtain ⟨h1, ⟨hx, h2⟩, h12⟩ := h
  refine ⟨fun y hy => h12 y hy x (List.mem_cons_self _ _), fun y hy => (hx y hy).symm,
    fun y hy z hz => h12 y hy z (List.mem_cons_of_mem _ hz), h1, h2⟩

theorem hd_mid (L1 L2 : List Blk) (x y : Blk) (r : Nat) (h : y.addr = x.addr) :
    hd (L1 ++ y :: L2) r = hd (L1 ++ x :: L2) r := by
  cases L1 <;> simp [hd, h]

theorem lastAddr_cons_ne (q : Nat) (x : Blk) (L : List Blk) :
    lastAddr q (x :: L) = lastAddr x.addr L := rfl

/-- Rewriting the size and the flag of one block of the list. -/
theorem rep_update {s : Heap} {L1 L2 : List Blk} {x : Blk} (hrep : Rep s (L1 ++ x :: L2))
    (hdist : Distinct (L1 ++ x :: L2)) (m1 : Nat → block_t) (sz : Nat) (fl : Int)
    (hx : m1 x.addr = { s.mem x.addr with size := sz, isFREE := fl })
    (hother : ∀ a, a ≠ x.addr → m1 a = s.mem a) :
    Rep { s with mem := m1 } (L1 ++ ⟨x.addr, sz, fl⟩ :: L2) := by
  obtain ⟨hseg, hhead, htail⟩ := hrep
  obtain ⟨h1, h2, _, _, _⟩ := distinct_mid hdist
  rw [seg_append, seg_cons] at hseg
  obtain ⟨hs1, hx0, hmx, hs2⟩ := hseg
  refine ⟨?_, ?_, ?_⟩
  · rw [seg_append, seg_cons]
    refine ⟨seg_congr (fun y hy => hother _ (h1 y hy)) hs1, hx0, ?_,
      seg_congr (fun y hy => hother _ (h2 y hy)) hs2⟩
    show m1 x.addr = _
    rw [hx, hmx]
  · show s.head = _
    rw [hhead]; exact (hd_mid L1 L2 x ⟨x.addr, sz, fl⟩ NULL rfl).symm
  · show s.tail = _
    rw [htail, lastAddr_append, lastAddr_append]; rfl

theorem store_store (m : Nat → block_t) (p : Nat) (b c : block_t) :
    store (store m p b) p c = store m p c := by
  funext x
  unfold store
  split <;> rfl

/-- The block `x` absorbs its successor `y`. -/
theorem rep_absorb {s : Heap} {L1 L2 : List Blk} {x y : Blk}
    (hrep : Rep s (L1 ++ x :: y :: L2)) (hdist : Distinct (L1 ++ x :: y :: L2)) :
    Rep (absorb s x.addr y.addr)
      (L1 ++ ⟨x.addr, (x.size + y.size + header_size) % WORD, x.isFREE⟩ :: L2) := by
  obtain ⟨hseg, hhead, htail⟩ := hrep
  obtain ⟨h1x, h2x, h12, _, hd2⟩ := distinct_mid hdist
  have hyx : y.addr ≠ x.addr := h2x y (List.mem_cons_self _ _)
  have hdy : ∀ z ∈ L2, y.addr ≠ z.addr := by
    unfold Distinct at hd2
    rw [List.pairwise_cons] at hd2
    exact hd2.1
  rw [seg_append, seg_cons, seg_cons] at hseg
  obtain ⟨hs1, hx0, hmx, hy0, hmy, hs2⟩ := hseg
  cases L2 with
  | nil =>
    have hnull : hd ([] : List Blk) NULL = NULL := rfl
    simp only [absorb, store_same, store_other _ _ hyx, hmx, hmy, store_store, hnull, ne_eq,
      not_true_eq_false, if_false]
    refine ⟨?_, ?_, ?_⟩
    · rw [seg_append, seg_cons]
      refine ⟨seg_congr (fun z hz => ?_) hs1, hx0, ?_, trivial⟩
      · show store _ _ _ _ = _
        rw [store_other _ _ (h1x z hz)]
      · show store _ _ _ _ = _
        rw [store_same]
        rfl
    · show s.head = _
      rw [hhead]
      cases L1 <;> rfl
    · show x.addr = _
      rw [lastAddr_append]; rfl
  | cons z L2 =>
    have hz0 : z.addr ≠ NULL := hs2.1
    have hzx : z.addr ≠ x.addr := h2x z (by simp)
    have hhd : hd (z :: L2) NULL = z.addr := rfl
    have hdz : ∀ w ∈ L2, w.addr ≠ z.addr := by
      unfold Distinct at hd2
      rw [List.pairwise_cons, List.pairwise_cons] at hd2
      exact fun w hw => (hd2.2.1 w hw).symm
    simp only [absorb, store_same, store_other _ _ hyx, hmx, hmy, store_store, hhd, ne_eq, hz0,
      not_false_eq_true, if_true]
    refine ⟨?_, ?_, ?_⟩
    · rw [seg_append, seg_cons]
      refine ⟨seg_congr (fun w hw => ?_) hs1, hx0, ?_, ?_⟩
      · show store _ _ _ _ = _
        rw [store_other _ _ (h12 w hw z (by simp)), store_other _ _ (h1x w hw)]
      · show store _ _ _ _ = _
        rw [store_other _ _ hzx.symm, store_same]
        rfl
      · refine seg_reprev hs2 ?_ (fun w hw => ?_)
        · show store _ _ _ _ = _
          rw [store_same, store_other _ _ hzx]
        · show store _ _ _ _ = _
          rw [store_other _ _ (hdz w hw), store_other _ _ (h2x w (by simp [hw]))]
    · show s.head = _
      rw [hhead]
      cases L1 <;> rfl
    · show s.tail = _
      rw [htail, lastAddr_append, lastAddr_append]; rfl

/-- The function `split_block` on a block `x` of the list, when the address
`new` of the remainder is not the address of a block of the list. -/
theorem rep_split {s : Heap} {L1 L2 : List Blk} {x : Blk} (hrep : Rep s (L1 ++ x :: L2))
    (hdist : Distinct (L1 ++ x :: L2)) (size new : Nat)
    (hnew : (x.addr + size + header_size) % WORD = new) (hn0 : new ≠ NULL)
    (hfresh : ∀ y ∈ L1 ++ x :: L2, y.addr ≠ new) :
    (split_block s x.addr size).1 = x.addr ∧
      Rep (split_block s x.addr size).2
        (L1 ++ ⟨x.addr, size, 0⟩ ::
          ⟨new, sub64 (sub64 x.size size) header_size, 1⟩ :: L2) := by
  obtain ⟨hseg, hhead, htail⟩ := hrep
  obtain ⟨h1x, h2x, h12, _, hd2⟩ := distinct_mid hdist
  have hxn : x.addr ≠ new := hfresh x (by simp)
  rw [seg_append, seg_cons] at hseg
  obtain ⟨hs1, hx0, hmx, hs2⟩ := hseg
  cases L2 with
  | nil =>
    have hnull : hd ([] : List Blk) NULL = NULL := rfl
    simp only [split_block, hnew, store_same, store_other _ _ hxn, store_other _ _ hxn.symm, hmx,
      store_store, hnull, if_true]
    refine ⟨trivial, ?_, ?_, ?_⟩
    · rw [seg_append, seg_cons, seg_cons]
      refine ⟨seg_congr (fun z hz => ?_) hs1, hx0, ?_, hn0, ?_, trivial⟩
      · show store _ _ _ _ = _
        rw [store_other _ _ (h1x z hz), store_other _ _ (hfresh z (by simp [hz]))]
      · show store _ _ _ _ = _
        rw [store_same]
        rfl
      · show store _ _ _ _ = _
        rw [store_other _ _ hxn.symm, store_same]
        rfl
    · show s.head = _
      rw [hhead]
      cases L1 <;> rfl
    · show new = _
      rw [lastAddr_append]; rfl
  | cons z L2 =>
    have hz0 : z.addr ≠ NULL := hs2.1
    have hzx : z.addr ≠ x.addr := h2x z (by simp)
    have hzn : z.addr ≠ new := hfresh z (by simp)
    have hhd : hd (z :: L2) NULL = z.addr := rfl
    have hdz : ∀ w ∈ L2, w.addr ≠ z.addr := by
      unfold Distinct at hd2
      rw [List.pairwise_cons] at hd2
      exact fun w hw => (hd2.1 w hw).symm
    simp only [split_block, hnew, store_same, store_other _ _ hxn, store_other _ _ hxn.symm, hmx,
      store_store, hhd, hz0, if_false]
    refine ⟨trivial, ?_, ?_, ?_⟩
    · rw [seg_append, seg_cons, seg_cons]
      refine ⟨seg_congr (fun w hw => ?_) hs1, hx0, ?_, hn0, ?_, ?_⟩
      · show store _ _ _ _ = _
        rw [store_other _ _ (h12 w hw z (by simp)), store_other _ _ (h1x w hw),
          store_other _ _ (hfresh w (by simp [hw]))]
      · show store _ _ _ _ = _
        rw [store_other _ _ hzx.symm, store_same]
        rfl
      · show store _ _ _ _ = _
        rw [store_other _ _ hzn.symm, store_other _ _ hxn.symm, store_same]
        rfl
      · refine seg_reprev hs2 ?_ (fun w hw => ?_)
        · show store _ _ _ _ = _
          rw [store_same, store_other _ _ hzx, store_other _ _ hzn]
        · show store _ _ _ _ = _
          rw [store_other _ _ (hdz w hw), store_other _ _ (h2x w (by simp [hw])),
            store_other _ _ (hfresh w (by simp [hw]))]
    · show s.head = _
      rw [hhead]
      cases L1 <;> rfl
    · show s.tail = _
      rw [htail, lastAddr_append, lastAddr_append]; rfl

/-! ## Growing the arena -/

theorem allocate_block_cases (s : Heap) (size : Nat) (hge : s.brk_min ≤ s.brk)
    (hle : s.brk ≤ s.brk_max) (hmax : s.brk_max + header_size < WORD) :
    (allocate_block s size).2.head = s.head ∧ (allocate_block s size).2.tail = s.tail ∧
      (allocate_block s size).2.brk_min = s.brk_min ∧
      (allocate_block s size).2.brk_max = s.brk_max ∧
      s.brk_min ≤ (allocate_block s size).2.brk ∧ (allocate_block s size).2.brk ≤ s.brk_max ∧
      (((allocate_block s size).1 = NULL ∧ (allocate_block s size).2.mem = s.mem ∧
          (size + header_size < 2 ^ 63 → s.brk ≤ (allocate_block s size).2.brk)) ∨
        ((allocate_block s size).1 = s.brk ∧
          (allocate_block s size).2.mem = store s.mem s.brk ⟨size, 0, NULL, NULL⟩ ∧
          (size + header_size < 2 ^ 63 →
            (allocate_block s size).2.brk = s.brk + 2 * (size + header_size)))) := by
  have hW : WORD = 2 ^ 64 := rfl
  have hF : SBRK_FAILED = 2 ^ 64 - 1 := rfl
  have hH : header_size = 32 := rfl
  have hmod : size + header_size < 2 ^ 63 → (size + header_size) % WORD = size + header_size :=
    fun h => Nat.mod_eq_of_lt (by omega)
  have hlt : (size + header_size) % WORD < WORD := Nat.mod_lt _ (by omega)
  unfold allocate_block
  generalize (size + header_size) % WORD = inc at hmod hlt
  have hne : s.brk ≠ SBRK_FAILED := by omega
  by_cases h1 : inc < 2 ^ 63
  · by_cases h2 : s.brk + inc ≤ s.brk_max
    · by_cases h3 : s.brk + inc + inc ≤ s.brk_max
      · have hne2 : s.brk + inc ≠ SBRK_FAILED := by omega
        simp only [sbrk, h1, h2, h3, hne2, if_true, if_false, store_store, store_same]
        refine ⟨trivial, trivial, trivial, trivial, by omega, trivial,
          Or.inr ⟨trivial, trivial, fun h => ?_⟩⟩
        have := hmod h
        omega
      · simp only [sbrk, h1, h2, h3, if_true, if_false]
        exact ⟨trivial, trivial, trivial, trivial, by omega, trivial,
          Or.inl ⟨trivial, trivial, fun _ => by omega⟩⟩
    · simp only [sbrk, h1, h2, if_true, if_false]
      exact ⟨trivial, trivial, trivial, trivial, hge, hle,
        Or.inl ⟨trivial, trivial, fun _ => le_refl _⟩⟩
  · have hbig : ¬ size + header_size < 2 ^ 63 := by
      intro h
      have := hmod h
      omega
    by_cases h2 : s.brk_min + (WORD - inc) ≤ s.brk
    · by_cases h3 : s.brk_min + (WORD - inc) ≤ s.brk - (WORD - inc)
      · have hne2 : s.brk - (WORD - inc) ≠ SBRK_FAILED := by omega
        simp only [sbrk, h1, h2, h3, hne2, if_true, if_false, store_store, store_same]
        exact ⟨trivial, trivial, trivial, trivial, by omega, by omega,
          Or.inr ⟨trivial, trivial, fun h => absurd h hbig⟩⟩
      · simp only [sbrk, h1, h2, h3, if_true, if_false]
        exact ⟨trivial, trivial, trivial, trivial, by omega, by omega,
          Or.inl ⟨trivial, trivial, fun h => absurd h hbig⟩⟩
    · simp only [sbrk, h1, h2, if_true, if_false]
      exact ⟨trivial, trivial, trivial, trivial, hge, hle,
        Or.inl ⟨trivial, trivial, fun h => absurd h hbig⟩⟩

/-! ## Layout of the blocks -/

theorem layout_cons (x : Blk) (L : List Blk) (e : Nat) :
    Layout (x :: L) e ↔ x.addr + header_size + x.size ≤ hd L e ∧ Layout L e :=
  Iff.rfl

theorem layout_append (L1 L2 : List Blk) (e : Nat) :
    Layout (L1 ++ L2) e ↔ Layout L1 (hd L2 e) ∧ Layout L2 e := by
  induction L1 with
  | nil => simp [Layout]
  | cons x L1 ih =>
    rw [List.cons_append, layout_cons, layout_cons, ih, hd_append]
    tauto

theorem layout_hd_le {L : List Blk} {e : Nat} (h : Layout L e) : hd L e ≤ e := by
  induction L with
  | nil => exact le_refl _
  | cons x L ih =>
    obtain ⟨hx, hL⟩ := h
    have := ih hL
    show x.addr ≤ e
    omega

theorem layout_mono {L : List Blk} {e e1 : Nat} (hle : e ≤ e1) (h : Layout L e) :
    Layout L e1 := by
  induction L with
  | nil => trivial
  | cons x L ih =>
    obtain ⟨hx, hL⟩ := h
    refine ⟨?_, ih hL⟩
    cases L with
    | nil => exact hx.trans hle
    | cons y L => exact hx

theorem layout_below {L : List Blk} {e : Nat} (h : Layout L e) :
    ∀ x ∈ L, x.addr + header_size + x.size ≤ e := by
  induction L with
  | nil => intro x hx; cases hx
  | cons y L ih =>
    obtain ⟨hy, hL⟩ := h
    intro x hx
    rcases List.mem_cons.1 hx with rfl | hx
    · exact hy.trans (layout_hd_le hL)
    · exact ih hL x hx

theorem layout_above {L : List Blk} {e : Nat} (h : Layout L e) :
    ∀ x ∈ L, hd L e ≤ x.addr := by
  induction L with
  | nil => intro x hx; cases hx
  | cons y L ih =>
    obtain ⟨hy, hL⟩ := h
    intro x hx
    rcases List.mem_cons.1 hx with rfl | hx
    · exact le_refl _
    · have := ih hL x hx
      show y.addr ≤ x.addr
      omega

theorem layout_pairwise {L : List Blk} {e : Nat} (h : Layout L e) :
    L.Pairwise (fun x y => x.addr + header_size + x.size ≤ y.addr) := by
  induction L with
  | nil => exact List.Pairwise.nil
  | cons y L ih =>
    obtain ⟨hy, hL⟩ := h
    refine List.Pairwise.cons (fun z hz => ?_) (ih hL)
    exact hy.trans (layout_above hL z hz)

theorem layout_chain {L : List Blk} {e : Nat} (h : Layout L e) :
    List.Chain' (fun x y => x.addr + header_size + x.size ≤ y.addr) L := by
  induction L with
  | nil => exact List.chain'_nil
  | cons y L ih =>
    obtain ⟨hy, hL⟩ := h
    cases L with
    | nil => exact List.chain'_singleton _
    | cons z L => exact List.chain'_cons.2 ⟨hy, ih hL⟩

theorem layout_distinct {L : List Blk} {e : Nat} (h : Layout L e) : Distinct L := by
  refine (layout_pairwise h).imp ?_
  intro x y hxy heq
  have hH : header_size = 32 := rfl
  omega

/-! ## Best-fit search: what it returns is usable -/

theorem find_bf_loop_sound (m : Nat → block_t) (size : Nat) (Good : Nat → Prop) (L : List Blk) :
    ∀ (x : Blk) (q fuel target difference : Nat), Seg m q (x :: L) NULL →
      (x :: L).length ≤ fuel → Good target →
      (∀ y ∈ x :: L, y.isFREE ≠ 0 → size ≤ y.size → Good y.addr) →
      ∃ r, find_bf_loop m size fuel x.addr target difference = some r ∧ Good r := by
  induction L with
  | nil =>
    intro x q fuel target difference hs hf ht hgood
    obtain ⟨_, hx, _⟩ := hs
    obtain ⟨f, rfl⟩ : ∃ f, fuel = f + 1 := ⟨fuel - 1, by simp at hf; omega⟩
    have hgx := hgood x (List.mem_cons_self _ _)
    have hnull : hd ([] : List Blk) NULL = NULL := rfl
    simp only [find_bf_loop, hx, hnull, ne_eq, not_true_eq_false, if_false]
    split_ifs with h1 h2 h3 h4
    · exact ⟨_, rfl, ht⟩
    · exact ⟨_, rfl, ht⟩
    · exact ⟨_, rfl, hgx h1 (by omega)⟩
    · exact ⟨_, rfl, hgx h1 (by omega)⟩
    · exact ⟨_, rfl, ht⟩
  | cons y L ih =>
    intro x q fuel target difference hs hf ht hgood
    obtain ⟨_, hx, hL⟩ := hs
    obtain ⟨f, rfl⟩ : ∃ f, fuel = f + 1 := ⟨fuel - 1, by simp at hf; omega⟩
    have hgx := hgood x (List.mem_cons_self _ _)
    have hrest : ∀ z ∈ y :: L, z.isFREE ≠ 0 → size ≤ z.size → Good z.addr :=
      fun z hz => hgood z (List.mem_cons_of_mem _ hz)
    have hy0 : y.addr ≠ NULL := hL.1
    have hhd : hd (y :: L) NULL = y.addr := rfl
    have hlen : (y :: L).length ≤ f := by simpa using hf
    simp only [find_bf_loop, hx, hhd, ne_eq, hy0, not_false_eq_true, if_true]
    split_ifs with h1 h2 h3 h4
    · exact ih y x.addr f _ _ hL hlen ht hrest
    · exact ih y x.addr f _ _ hL hlen ht hrest
    · exact ⟨_, rfl, hgx h1 (by omega)⟩
    · exact ih y x.addr f _ _ hL hlen (hgx h1 (by omega)) hrest
    · exact ih y x.addr f _ _ hL hlen ht hrest

/-- Whatever `find_bf` returns on a block list is `NULL` or a block of the
list whose flag is not 0 and whose size is at least the request; the search
ends within one loop round per block. -/
theorem find_bf_sound (s : Heap) (L : List Blk) (size fuel : Nat) (hrep : Rep s L)
    (hfuel : L.length ≤ fuel) :
    ∃ r, find_bf fuel s size = some r ∧
      (r = NULL ∨ ∃ y ∈ L, r = y.addr ∧ y.isFREE ≠ 0 ∧ size ≤ y.size) := by
  obtain ⟨hseg, hhead, _⟩ := hrep
  cases L with
  | nil => exact ⟨NULL, by simp [find_bf, hhead, hd], Or.inl rfl⟩
  | cons x L =>
    have hx0 : x.addr ≠ NULL := hseg.1
    obtain ⟨r, hr, hgood⟩ := find_bf_loop_sound s.mem size
      (fun r => r = NULL ∨ ∃ y ∈ x :: L, r = y.addr ∧ y.isFREE ≠ 0 ∧ size ≤ y.size) L x NULL fuel
      NULL UINT_MAX hseg hfuel (Or.inl rfl) (fun y hy h1 h2 => Or.inr ⟨y, hy, rfl, h1, h2⟩)
    exact ⟨r, by simp only [find_bf, hhead, hd, hx0, if_false, hr], hgood⟩

/-! ## The allocation paths on a well-formed state -/

theorem wf_fresh {s : Heap} {L : List Blk} (hwf : WF s L) : ∀ x ∈ L, x.addr ≠ s.brk := by
  intro x hx
  have := layout_below hwf.layout x hx
  have hH : header_size = 32 := rfl
  omega

theorem rep_nil_iff {s : Heap} {L : List Blk} (hrep : Rep s L) :
    (s.head = NULL ∧ s.tail = NULL) ↔ L = [] := by
  obtain ⟨hseg, hhead, htail⟩ := hrep
  cases L with
  | nil => simp [hhead, htail, hd, lastAddr]
  | cons x L =>
    have hx0 : x.addr ≠ NULL := hseg.1
    simp [hhead, hd, hx0]

theorem first_block_proj (s : Heap) (size : Nat) :
    (first_block s size).1 =
        (if (allocate_block s size).1 = NULL then NULL
          else ((allocate_block s size).1 + header_size) % WORD) ∧
      (first_block s size).2.mem = (allocate_block s size).2.mem ∧
      (first_block s size).2.head = (allocate_block s size).1 ∧
      (first_block s size).2.tail =
        (if (allocate_block s size).1 = NULL then (allocate_block s size).2.tail
          else (allocate_block s size).1) ∧
      (first_block s size).2.brk = (allocate_block s size).2.brk ∧
      (first_block s size).2.brk_min = (allocate_block s size).2.brk_min ∧
      (first_block s size).2.brk_max = (allocate_block s size).2.brk_max := by
  unfold first_block
  by_cases h : (allocate_block s size).1 = NULL <;> simp [h]

/-- The first branch of the allocation functions on the empty list: the
growth fails and the list stays empty, or the new block is the whole list. -/
theorem first_block_spec {s : Heap} (hwf : WF s []) (size : Nat) :
    ((first_block s size).1 = NULL ∧ Rep (first_block s size).2 [] ∧
        (first_block s size).2.mem = s.mem ∧
        (size + header_size < 2 ^ 63 → WF (first_block s size).2 [])) ∨
      ((first_block s size).1 = s.brk + header_size ∧
        Rep (first_block s size).2 [⟨s.brk, size, 0⟩] ∧
        (size + header_size < 2 ^ 63 → WF (first_block s size).2 [⟨s.brk, size, 0⟩])) := by
  obtain ⟨c1, c2, c3, c4, c5, c6, c7⟩ :=
    allocate_block_cases s size hwf.brk_ge hwf.brk_le hwf.brk_max_lt
  obtain ⟨p1, p2, p3, p4, p5, p6, p7⟩ := first_block_proj s size
  have hpos := hwf.brk_pos
  have hle := hwf.brk_le
  have hmax := hwf.brk_max_lt
  have hW : WORD = 2 ^ 64 := rfl
  have hH : header_size = 32 := rfl
  have hN : NULL = 0 := rfl
  obtain ⟨_, hhead, htail⟩ := hwf.rep
  rcases c7 with ⟨e1, e2, e3⟩ | ⟨e1, e2, e3⟩
  · rw [e1] at p1 p3 p4
    simp only [if_true] at p1 p4
    have hrep : Rep (first_block s size).2 [] := ⟨trivial, p3, by rw [p4, c2, htail]⟩
    refine Or.inl ⟨p1, hrep, by rw [p2, e2], fun hs => ?_⟩
    refine ⟨hrep, trivial, (fun x hx => by cases hx), ?_, ?_, ?_, ?_⟩
    · rw [p5]
      have := e3 hs
      omega
    · rw [p5, p6, c3]; exact c5
    · rw [p5, p7, c4]; exact c6
    · rw [p7, c4]; exact hmax
  · have hne : s.brk ≠ NULL := by omega
    rw [e1] at p1 p3 p4
    simp only [hne, if_false] at p1 p4
    have hrep : Rep (first_block s size).2 [⟨s.brk, size, 0⟩] := by
      refine ⟨⟨hne, ?_, trivial⟩, p3, p4⟩
      show (first_block s size).2.mem s.brk = _
      rw [p2, e2, store_same]
      rfl
    refine Or.inr ⟨by rw [p1]; exact Nat.mod_eq_of_lt (by omega), hrep, fun hs => ?_⟩
    refine ⟨hrep, ⟨?_, trivial⟩, ?_, ?_, ?_, ?_, ?_⟩
    · show s.brk + header_size + size ≤ (first_block s size).2.brk
      rw [p5, e3 hs]; omega
    · intro x hx
      rw [List.mem_singleton] at hx
      subst hx
      exact Or.inl rfl
    · rw [p5, e3 hs]; omega
    · rw [p5, p6, c3]; exact c5
    · rw [p5, p7, c4]; exact c6
    · rw [p7, c4]; exact hmax

theorem place_miss_proj (s : Heap) (size : Nat) :
    (place s size NULL).1 =
        (if (allocate_block s size).1 = NULL then NULL
          else ((allocate_block s size).1 + header_size) % WORD) ∧
      (place s size NULL).2.mem =
        (if (allocate_block s size).1 = NULL then (allocate_block s size).2.mem
          else store (store (allocate_block s size).2.mem (allocate_block s size).2.tail
              { (allocate_block s size).2.mem (allocate_block s size).2.tail with
                next := (allocate_block s size).1 })
            (allocate_block s size).1
            { store (allocate_block s size).2.mem (allocate_block s size).2.tail
                { (allocate_block s size).2.mem (allocate_block s size).2.tail with
                  next := (allocate_block s size).1 } (allocate_block s size).1 with
              prev := (allocate_block s size).2.tail }) ∧
      (place s size NULL).2.head = (allocate_block s size).2.head ∧
      (place s size NULL).2.tail =
        (if (allocate_block s size).1 = NULL then (allocate_block s size).2.tail
          else (allocate_block s size).1) ∧
      (place s size NULL).2.brk = (allocate_block s size).2.brk ∧
      (place s size NULL).2.brk_min = (allocate_block s size).2.brk_min ∧
      (place s size NULL).2.brk_max = (allocate_block s size).2.brk_max := by
  unfold place
  by_cases h : (allocate_block s size).1 = NULL <;> simp [h]

/-- A miss of the search on a non-empty list: the growth fails and the list
is unchanged, or the new block is appended after the old tail. -/
theorem place_miss_spec {s : Heap} {L : List Blk} (hwf : WF s L) (hne : L ≠ []) (size : Nat) :
    ((place s size NULL).1 = NULL ∧ Rep (place s size NULL).2 L ∧
        (place s size NULL).2.mem = s.mem ∧
        (size + header_size < 2 ^ 63 → WF (place s size NULL).2 L)) ∨
      ((place s size NULL).1 = s.brk + header_size ∧
        Rep (place s size NULL).2 (L ++ [⟨s.brk, size, 0⟩]) ∧
        (size + header_size < 2 ^ 63 → WF (place s size NULL).2 (L ++ [⟨s.brk, size, 0⟩]))) := by
  obtain ⟨c1, c2, c3, c4, c5, c6, c7⟩ :=
    allocate_block_cases s size hwf.brk_ge hwf.brk_le hwf.brk_max_lt
  obtain ⟨p1, p2, p3, p4, p5, p6, p7⟩ := place_miss_proj s size
  have hpos := hwf.brk_pos
  have hle := hwf.brk_le
  have hmax := hwf.brk_max_lt
  have hW : WORD = 2 ^ 64 := rfl
  have hH : header_size = 32 := rfl
  have hN : NULL = 0 := rfl
  obtain ⟨hseg, hhead, htail⟩ := hwf.rep
  rcases c7 with ⟨e1, e2, e3⟩ | ⟨e1, e2, e3⟩
  · rw [e1] at p1 p2 p4
    simp only [if_true] at p1 p2 p4
    have hrep : Rep (place s size NULL).2 L :=
      ⟨by rw [p2, e2]; exact hseg, by rw [p3, c1]; exact hhead, by rw [p4, c2]; exact htail⟩
    refine Or.inl ⟨p1, hrep, by rw [p2, e2], fun hs => ?_⟩
    refine ⟨hrep, ?_, hwf.flags, ?_, ?_, ?_, ?_⟩
    · rw [p5]; exact layout_mono (e3 hs) hwf.layout
    · rw [p5]
      have := e3 hs
      omega
    · rw [p5, p6, c3]; exact c5
    · rw [p5, p7, c4]; exact c6
    · rw [p7, c4]; exact hmax
  · have hne0 : s.brk ≠ NULL := by omega
    simp only [e1, c2, hne0, if_false] at p1 p2 p4
    obtain ⟨L0, z, rfl⟩ : ∃ L0 z, L = L0 ++ [z] := by
      rcases List.eq_nil_or_concat L with h | ⟨L0, z, h⟩
      · exact absurd h hne
      · exact ⟨L0, z, by rw [h, List.concat_eq_append]⟩
    have htl : s.tail = z.addr := by rw [htail, lastAddr_append]; rfl
    have hfresh := wf_fresh hwf
    have hzb : z.addr ≠ s.brk := hfresh z (by simp)
    obtain ⟨h1z, _, _, _, _⟩ := distinct_mid (layout_distinct hwf.layout)
    rw [seg_append, seg_cons] at hseg
    obtain ⟨hs1, hz0, hmz, _⟩ := hseg
    rw [htl, e2] at p2
    have hrep : Rep (place s size NULL).2 (L0 ++ [z] ++ [⟨s.brk, size, 0⟩]) := by
      refine ⟨?_, ?_, ?_⟩
      · rw [seg_append, seg_append, seg_cons, seg_cons, p2]
        refine ⟨⟨seg_congr (fun w hw => ?_) hs1, hz0, ?_, trivial⟩, hne0, ?_, trivial⟩
        · rw [store_other _ _ (hfresh w (by simp [hw])), store_other _ _ (h1z w hw),
            store_other _ _ (hfresh w (by simp [hw]))]
        · rw [store_other _ _ hzb, store_same, store_other _ _ hzb, hmz]
          rfl
        · rw [store_same, store_other _ _ hzb.symm, store_same, lastAddr_append]
          rfl
      · rw [p3, c1, hhead]
        cases L0 <;> rfl
      · rw [p4, lastAddr_append]; rfl
    refine Or.inr ⟨by rw [p1]; exact Nat.mod_eq_of_lt (by omega), hrep, fun hs => ?_⟩
    refine ⟨hrep, ?_, ?_, ?_, ?_, ?_, ?_⟩
    · rw [p5, e3 hs, layout_append]
      refine ⟨hwf.layout, ?_, trivial⟩
      show s.brk + header_size + size ≤ s.brk + 2 * (size + header_size)
      omega
    · intro x hx
      rcases List.mem_append.1 hx with hx | hx
      · exact hwf.flags x hx
      · rw [List.mem_singleton] at hx
        subst hx
        exact Or.inl rfl
    · rw [p5, e3 hs]; omega
    · rw [p5, p6, c3]; exact c5
    · rw [p5, p7, c4]; exact c6
    · rw [p7, c4]; exact hmax

theorem sub64_eq {a b : Nat} (hba : b ≤ a) (ha : a < WORD) : sub64 a b = a - b := by
  have hW : WORD = 2 ^ 64 := rfl
  unfold sub64
  rw [Nat.mod_eq_of_lt (show b < WORD by omega)]
  rw [show a + (WORD - b) = (a - b) + WORD by omega, Nat.add_mod_right]
  exact Nat.mod_eq_of_lt (by omega)

theorem split_block_env (s : Heap) (p size : Nat) :
    (split_block s p size).2.brk = s.brk ∧ (split_block s p size).2.brk_min = s.brk_min ∧
      (split_block s p size).2.brk_max = s.brk_max := by
  unfold split_block
  simp only []
  split_ifs <;> exact ⟨rfl, rfl, rfl⟩

theorem place_hit_eq (s : Heap) (size curr : Nat) (hc : curr ≠ NULL) :
    place s size curr =
      if (s.mem curr).size ≥ (size + header_size) % WORD then
        (((split_block s curr size).1 + header_size) % WORD, (split_block s curr size).2)
      else
        ((curr + header_size) % WORD,
          { s with mem := store s.mem curr { s.mem curr with isFREE := 0 } }) := by
  simp [place, hc]

/-- A hit of the search on the block `x` of a well-formed list: the block is
handed out whole when its size is below `size + sizeof(block_t)` and split
otherwise. The break does not move. -/
theorem place_hit_spec {s : Heap} {L1 L2 : List Blk} {x : Blk} (hwf : WF s (L1 ++ x :: L2))
    (size : Nat) (hsz : size ≤ x.size) :
    (place s size x.addr).1 = x.addr + header_size ∧
      (place s size x.addr).2.brk = s.brk ∧
      ((x.size < size + header_size ∧
          WF (place s size x.addr).2 (L1 ++ ⟨x.addr, x.size, 0⟩ :: L2)) ∨
        (size + header_size ≤ x.size ∧
          WF (place s size x.addr).2
            (L1 ++ ⟨x.addr, size, 0⟩ ::
              ⟨x.addr + header_size + size, x.size - size - header_size, 1⟩ :: L2))) := by
  have hW : WORD = 2 ^ 64 := rfl
  have hH : header_size = 32 := rfl
  have hle := hwf.brk_le
  have hmax := hwf.brk_max_lt
  have hxb := layout_below hwf.layout x (by simp)
  have hdist := layout_distinct hwf.layout
  have hxm := seg_mem hwf.rep.1 (show x ∈ L1 ++ x :: L2 by simp)
  have hlay := hwf.layout
  rw [layout_append, layout_cons] at hlay
  obtain ⟨hl1, hlx, hl2⟩ := hlay
  have hm1 : (size + header_size) % WORD = size + header_size := Nat.mod_eq_of_lt (by omega)
  have hm2 : (x.addr + header_size) % WORD = x.addr + header_size := Nat.mod_eq_of_lt (by omega)
  rw [place_hit_eq s size x.addr hxm.1, hxm.2.1, hm1]
  by_cases hsplit : x.size ≥ size + header_size
  · rw [if_pos hsplit]
    have hnew : (x.addr + size + header_size) % WORD = x.addr + header_size + size := by
      rw [Nat.mod_eq_of_lt (by omega)]; omega
    have hflags : ∀ y ∈ L1 ++ x :: L2, y.isFREE = 0 ∨ y.isFREE = 1 := hwf.flags
    have hfresh : ∀ y ∈ L1 ++ x :: L2, y.addr ≠ x.addr + header_size + size := by
      intro y hy
      rcases List.mem_append.1 hy with hy | hy
      · have := layout_below hl1 y hy
        show y.addr ≠ _
        have h2 : hd (x :: L2) s.brk = x.addr := rfl
        omega
      · rcases List.mem_cons.1 hy with rfl | hy
        · omega
        · have := layout_above hl2 y hy
          omega
    obtain ⟨r1, r2⟩ := rep_split hwf.rep hdist size (x.addr + header_size + size) hnew
      (by show _ ≠ 0; omega) hfresh
    obtain ⟨v1, v2, v3⟩ := split_block_env s x.addr size
    rw [sub64_eq hsz (by omega), sub64_eq (by omega) (by omega)] at r2
    refine ⟨by rw [r1]; exact hm2, v1, Or.inr ⟨hsplit, r2, ?_, ?_, ?_, ?_, ?_, ?_⟩⟩
    · rw [layout_append, layout_cons, layout_cons]
      refine ⟨hl1, ?_, ?_, ?_⟩
      · show x.addr + header_size + size ≤ x.addr + header_size + size
        exact le_refl _
      · show x.addr + header_size + size + header_size + (x.size - size - header_size) ≤ _
        rw [v1]
        omega
      · rw [v1]; exact hl2
    · intro y hy
      rcases List.mem_append.1 hy with hy | hy
      · exact hflags y (by simp [hy])
      · rcases List.mem_cons.1 hy with rfl | hy
        · exact Or.inl rfl
        · rcases List.mem_cons.1 hy with rfl | hy
          · exact Or.inr rfl
          · exact hflags y (by simp [hy])
    · rw [v1]; exact hwf.brk_pos
    · rw [v1, v2]; exact hwf.brk_ge
    · rw [v1, v3]; exact hwf.brk_le
    · rw [v3]; exact hwf.brk_max_lt
  · rw [if_neg hsplit]
    have hrep := rep_update hwf.rep hdist
      (store s.mem x.addr { s.mem x.addr with isFREE := 0 }) x.size 0
      (by rw [store_same, ← hxm.2.1]) (fun a ha => store_other _ _ ha)
    refine ⟨hm2, rfl, Or.inl ⟨by omega, hrep, ?_, ?_, hwf.brk_pos, hwf.brk_ge, hwf.brk_le,
      hwf.brk_max_lt⟩⟩
    · rw [layout_append, layout_cons]
      exact ⟨hl1, hlx, hl2⟩
    · intro y hy
      rcases List.mem_append.1 hy with hy | hy
      · exact hwf.flags y (by simp [hy])
      · rcases List.mem_cons.1 hy with rfl | hy
        · exact Or.inl rfl
        · exact hwf.flags y (by simp [hy])

/-! ## Release on a well-formed state -/

theorem absorb_env (s : Heap) (a b : Nat) :
    (absorb s a b).brk = s.brk ∧ (absorb s a b).brk_min = s.brk_min ∧
      (absorb s a b).brk_max = s.brk_max := by
  unfold absorb
  simp only []
  split_ifs <;> exact ⟨rfl, rfl, rfl⟩

theorem merge_next_eq (s : Heap) (target nextOne : Nat) :
    merge_next s target nextOne =
      if nextOne ≠ NULL ∧ (s.mem nextOne).isFREE = 1 then absorb s target nextOne else s :=
  rfl

theorem merge_prev_eq (s : Heap) (target previous : Nat) :
    merge_prev s target previous =
      if previous ≠ NULL ∧ (s.mem previous).isFREE = 1 then absorb s previous target else s :=
  rfl

/-- On a well-formed list the block `x` absorbs its successor `y`: one block
of size `x.size + y.size + sizeof(block_t)` takes the place of both. -/
theorem wf_absorb {s : Heap} {L1 L2 : List Blk} {x y : Blk}
    (hwf : WF s (L1 ++ x :: y :: L2)) :
    WF (absorb s x.addr y.addr)
      (L1 ++ ⟨x.addr, x.size + y.size + header_size, x.isFREE⟩ :: L2) := by
  have hW : WORD = 2 ^ 64 := rfl
  have hH : header_size = 32 := rfl
  have hle := hwf.brk_le
  have hmax := hwf.brk_max_lt
  have hyb := layout_below hwf.layout y (by simp)
  have hlay := hwf.layout
  rw [layout_append, layout_cons, layout_cons] at hlay
  obtain ⟨hl1, hlx, hly, hl2⟩ := hlay
  have hxy : x.addr + header_size + x.size ≤ y.addr := hlx
  obtain ⟨v1, v2, v3⟩ := absorb_env s x.addr y.addr
  have hrep := rep_absorb hwf.rep (layout_distinct hwf.layout)
  rw [Nat.mod_eq_of_lt (show x.size + y.size + header_size < WORD by omega)] at hrep
  refine ⟨hrep, ?_, ?_, ?_, ?_, ?_, ?_⟩
  · rw [v1, layout_append, layout_cons]
    refine ⟨hl1, ?_, hl2⟩
    show x.addr + header_size + (x.size + y.size + header_size) ≤ _
    omega
  · intro z hz
    rcases List.mem_append.1 hz with hz | hz
    · exact hwf.flags z (by simp [hz])
    · rcases List.mem_cons.1 hz with rfl | hz
      · exact hwf.flags x (by simp)
      · exact hwf.flags z (by simp [hz])
  · rw [v1]; exact hwf.brk_pos
  · rw [v1, v2]; exact hwf.brk_ge
  · rw [v1, v3]; exact hwf.brk_le
  · rw [v3]; exact hwf.brk_max_lt

/-- Marking a block of a well-formed list free. -/
theorem wf_set_free {s : Heap} {L1 L2 : List Blk} {t : Blk} (hwf : WF s (L1 ++ t :: L2)) :
    WF { s with mem := store s.mem t.addr { s.mem t.addr with isFREE := 1 } }
      (L1 ++ ⟨t.addr, t.size, 1⟩ :: L2) := by
  have htm := seg_mem hwf.rep.1 (show t ∈ L1 ++ t :: L2 by simp)
  have hrep := rep_update hwf.rep (layout_distinct hwf.layout)
    (store s.mem t.addr { s.mem t.addr with isFREE := 1 }) t.size 1
    (by rw [store_same, ← htm.2.1]) (fun a ha => store_other _ _ ha)
  have hlay := hwf.layout
  rw [layout_append, layout_cons] at hlay
  refine ⟨hrep, ?_, ?_, hwf.brk_pos, hwf.brk_ge, hwf.brk_le, hwf.brk_max_lt⟩
  · rw [layout_append, layout_cons]
    exact hlay
  · intro z hz
    rcases List.mem_append.1 hz with hz | hz
    · exact hwf.flags z (by simp [hz])
    · rcases List.mem_cons.1 hz with rfl | hz
      · exact Or.inr rfl
      · exact hwf.flags z (by simp [hz])

/-- The forward half of `merge_block` at the free block `t`: the successor is
absorbed exactly when there is one and it is free. -/
theorem merge_next_spec {s : Heap} {L1 L2 : List Blk} {t : Blk} (hwf : WF s (L1 ++ t :: L2)) :
    (∃ c L3, L2 = c :: L3 ∧ c.isFREE = 1 ∧
        WF (merge_next s t.addr (hd L2 NULL))
          (L1 ++ ⟨t.addr, t.size + c.size + header_size, t.isFREE⟩ :: L3)) ∨
      ((∀ c ∈ L2.head?, c.isFREE ≠ 1) ∧ WF (merge_next s t.addr (hd L2 NULL)) (L1 ++ t :: L2)) := by
  rw [merge_next_eq]
  cases L2 with
  | nil =>
    refine Or.inr ⟨by simp, ?_⟩
    have : ¬ (hd ([] : List Blk) NULL ≠ NULL ∧ (s.mem (hd ([] : List Blk) NULL)).isFREE = 1) :=
      fun h => h.1 rfl
    rw [if_neg this]
    exact hwf
  | cons c L3 =>
    have hcm := seg_mem hwf.rep.1 (show c ∈ L1 ++ t :: c :: L3 by simp)
    have hhd : hd (c :: L3) NULL = c.addr := rfl
    rw [hhd, hcm.2.2]
    by_cases hc : c.isFREE = 1
    · rw [if_pos ⟨hcm.1, hc⟩]
      exact Or.inl ⟨c, L3, rfl, hc, wf_absorb hwf⟩
    · rw [if_neg (fun h => hc h.2)]
      refine Or.inr ⟨?_, hwf⟩
      intro d hd
      simp only [List.head?_cons, Option.mem_def, Option.some.injEq] at hd
      subst hd
      exact hc

/-- The backward half of `merge_block` at the block `u`: the predecessor
absorbs `u` exactly when there is one and it is free. -/
theorem merge_prev_spec {s : Heap} {L1 L2 : List Blk} {u : Blk} (hwf : WF s (L1 ++ u :: L2)) :
    (∃ L0 a, L1 = L0 ++ [a] ∧ a.isFREE = 1 ∧
        WF (merge_prev s u.addr (lastAddr NULL L1))
          (L0 ++ ⟨a.addr, a.size + u.size + header_size, a.isFREE⟩ :: L2)) ∨
      ((∀ a ∈ L1.getLast?, a.isFREE ≠ 1) ∧
        WF (merge_prev s u.addr (lastAddr NULL L1)) (L1 ++ u :: L2)) := by
  rw [merge_prev_eq]
  rcases List.eq_nil_or_concat L1 with h | ⟨L0, a, h⟩
  · subst h
    refine Or.inr ⟨by simp, ?_⟩
    have : ¬ (lastAddr NULL ([] : List Blk) ≠ NULL ∧
        (s.mem (lastAddr NULL ([] : List Blk))).isFREE = 1) := fun h => h.1 rfl
    rw [if_neg this]
    exact hwf
  · rw [List.concat_eq_append] at h
    subst h
    have hwf2 : WF s (L0 ++ a :: u :: L2) := by simpa using hwf
    have ham := seg_mem hwf2.rep.1 (show a ∈ L0 ++ a :: u :: L2 by simp)
    have hla : lastAddr NULL (L0 ++ [a]) = a.addr := by rw [lastAddr_append]; rfl
    rw [hla, ham.2.2]
    by_cases ha : a.isFREE = 1
    · rw [if_pos ⟨ham.1, ha⟩]
      exact Or.inl ⟨L0, a, rfl, ha, wf_absorb hwf2⟩
    · rw [if_neg (fun h => ha h.2)]
      refine Or.inr ⟨?_, hwf⟩
      intro d hd
      rw [List.getLast?_concat] at hd
      simp only [Option.mem_def, Option.some.injEq] at hd
      subst hd
      exact ha

theorem merge_block_eq (s : Heap) (target : Nat) (h : target ≠ NULL) :
    merge_block s target =
      merge_prev (merge_next s target (s.mem target).next) target (s.mem target).prev := by
  simp [merge_block, h]

/-- Releasing the payload pointer of the block `t` of a well-formed list: `t`
is marked free, merged with a free successor and then with a free
predecessor; the blocks before and after are unchanged. -/
theorem free_blocks_spec {s : Heap} {L1 L2 : List Blk} {t : Blk} (hwf : WF s (L1 ++ t :: L2)) :
    ∃ u S P M, Fwd t L2 u S ∧ Bwd L1 u P M ∧
      WF (free_blocks s (t.addr + header_size)) (P ++ M :: S) := by
  have hW : WORD = 2 ^ 64 := rfl
  have hH : header_size = 32 := rfl
  have hN : NULL = 0 := rfl
  have hle := hwf.brk_le
  have hmax := hwf.brk_max_lt
  have htb := layout_below hwf.layout t (by simp)
  have hp : t.addr + header_size ≠ NULL := by omega
  have htarget : sub64 (t.addr + header_size) header_size = t.addr := by
    rw [sub64_eq (by omega) (by omega)]; omega
  have hwf1 := wf_set_free hwf
  have hseg := hwf1.rep.1
  rw [seg_append, seg_cons] at hseg
  obtain ⟨_, ht0, hmt, _⟩ := hseg
  have hfree : free_blocks s (t.addr + header_size) =
      merge_prev (merge_next
        { s with mem := store s.mem t.addr { s.mem t.addr with isFREE := 1 } } t.addr
        (hd L2 NULL)) t.addr (lastAddr NULL L1) := by
    unfold free_blocks
    rw [if_neg hp]
    simp only [htarget]
    rw [merge_block_eq _ _ ht0, hmt]
  rw [hfree]
  rcases merge_next_spec hwf1 with ⟨c, L3, hL2, hc, hwf2⟩ | ⟨hnc, hwf2⟩
  · rcases merge_prev_spec (u := ⟨t.addr, t.size + c.size + header_size, 1⟩) hwf2 with
      ⟨L0, a, hL1, ha, hwf3⟩ | ⟨hna, hwf3⟩
    · refine ⟨_, L3, L0, _, Or.inr ⟨c, hL2, hc, rfl⟩, Or.inr ⟨a, hL1, ha, rfl⟩, ?_⟩
      rw [ha] at hwf3
      exact hwf3
    · exact ⟨_, L3, L1, _, Or.inr ⟨c, hL2, hc, rfl⟩, Or.inl ⟨rfl, rfl, hna⟩, hwf3⟩
  · rcases merge_prev_spec (u := ⟨t.addr, t.size, 1⟩) hwf2 with
      ⟨L0, a, hL1, ha, hwf3⟩ | ⟨hna, hwf3⟩
    · refine ⟨_, L2, L0, _, Or.inl ⟨rfl, rfl, hnc⟩, Or.inr ⟨a, hL1, ha, rfl⟩, ?_⟩
      rw [ha] at hwf3
      exact hwf3
    · exact ⟨_, L2, L1, _, Or.inl ⟨rfl, rfl, hnc⟩, Or.inl ⟨rfl, rfl, hna⟩, hwf3⟩

/-! ## Free neighbours and live pointers on the block list -/

theorem noadj_left {L1 L2 : List Blk} (h : NoAdjFree (L1 ++ L2)) : NoAdjFree L1 :=
  (List.chain'_append.1 h).1

theorem noadj_right {L1 L2 : List Blk} (h : NoAdjFree (L1 ++ L2)) : NoAdjFree L2 :=
  (List.chain'_append.1 h).2.1

theorem noadj_tail {x : Blk} {L : List Blk} (h : NoAdjFree (x :: L)) : NoAdjFree L :=
  List.Chain'.tail h

/-- When a block followed by `L` is free, the first block of `L` is in use. -/
theorem noadj_head_busy {x : Blk} {L : List Blk} (h : NoAdjFree (x :: L)) (hx : x.isFREE = 1) :
    ∀ c ∈ L.head?, c.isFREE ≠ 1 := by
  intro c hc hc1
  cases L with
  | nil => cases hc
  | cons d L =>
    simp only [List.head?_cons, Option.mem_def, Option.some.injEq] at hc
    subst hc
    exact (List.chain'_cons.1 h).1 ⟨hx, hc1⟩

/-- When a free block follows `L`, the last block of `L` is in use. -/
theorem noadj_last_busy {x : Blk} {L : List Blk} (h : NoAdjFree (L ++ [x])) (hx : x.isFREE = 1) :
    ∀ a ∈ L.getLast?, a.isFREE ≠ 1 := by
  intro a ha ha1
  exact (List.chain'_append.1 h).2.2 a ha x (by simp) ⟨ha1, hx⟩

theorem noadj_cons {x : Blk} {L : List Blk} (h : NoAdjFree L)
    (hx : x.isFREE ≠ 1 ∨ ∀ c ∈ L.head?, c.isFREE ≠ 1) : NoAdjFree (x :: L) := by
  cases L with
  | nil => exact List.chain'_singleton _
  | cons d L =>
    refine List.chain'_cons.2 ⟨?_, h⟩
    rintro ⟨h1, h2⟩
    rcases hx with hx | hx
    · exact hx h1
    · exact hx d (by simp) h2

theorem noadj_concat {x : Blk} {L : List Blk} (h : NoAdjFree L)
    (hx : x.isFREE ≠ 1 ∨ ∀ a ∈ L.getLast?, a.isFREE ≠ 1) : NoAdjFree (L ++ [x]) := by
  refine List.chain'_append.2 ⟨h, List.chain'_singleton _, ?_⟩
  intro a ha y hy
  simp only [List.head?_cons, Option.mem_def, Option.some.injEq] at hy
  subst hy
  rintro ⟨h1, h2⟩
  rcases hx with hx | hx
  · exact hx h2
  · exact hx a ha h1

theorem noadj_mid {x : Blk} {L1 L2 : List Blk} (h1 : NoAdjFree (L1 ++ [x]))
    (h2 : NoAdjFree (x :: L2)) : NoAdjFree (L1 ++ x :: L2) :=
  List.chain'_split.2 ⟨h1, h2⟩

theorem noadj_split {x : Blk} {L1 L2 : List Blk} (h : NoAdjFree (L1 ++ x :: L2)) :
    NoAdjFree (L1 ++ [x]) ∧ NoAdjFree (x :: L2) :=
  List.chain'_split.1 h

theorem payloads_append (L1 L2 : List Blk) :
    payloads (L1 ++ L2) = payloads L1 ++ payloads L2 := by
  simp [payloads]

theorem payloads_cons_busy {x : Blk} (L : List Blk) (hx : x.isFREE = 0) :
    payloads (x :: L) = (x.addr + header_size) :: payloads L := by
  simp [payloads, hx]

theorem payloads_cons_free {x : Blk} (L : List Blk) (hx : x.isFREE = 1) :
    payloads (x :: L) = payloads L := by
  simp [payloads, hx]

theorem mem_payloads {L : List Blk} {p : Nat} :
    p ∈ payloads L ↔ ∃ x ∈ L, x.isFREE = 0 ∧ p = x.addr + header_size := by
  simp only [payloads, List.mem_map, List.mem_filter, decide_eq_true_eq]
  constructor
  · rintro ⟨x, ⟨hx, h0⟩, rfl⟩
    exact ⟨x, hx, h0, rfl⟩
  · rintro ⟨x, hx, h0, rfl⟩
    exact ⟨x, ⟨hx, h0⟩, rfl⟩

/-! ## More fuel does not change a search result -/

theorem find_ff_loop_mono (m : Nat → block_t) (size : Nat) :
    ∀ (fuel k p r : Nat), find_ff_loop m size fuel p = some r →
      find_ff_loop m size (fuel + k) p = some r := by
  intro fuel
  induction fuel with
  | zero => intro k p r h; simp [find_ff_loop] at h
  | succ f ih =>
    intro k p r h
    rw [show f + 1 + k = (f + k) + 1 by omega]
    simp only [find_ff_loop] at h ⊢
    split_ifs at h ⊢ with h1 h2
    · exact h
    · exact ih k _ r h
    · exact h

theorem find_bf_loop_mono (m : Nat → block_t) (size : Nat) :
    ∀ (fuel k p target difference r : Nat),
      find_bf_loop m size fuel p target difference = some r →
      find_bf_loop m size (fuel + k) p target difference = some r := by
  intro fuel
  induction fuel with
  | zero => intro k p target difference r h; simp [find_bf_loop] at h
  | succ f ih =>
    intro k p target difference r h
    rw [show f + 1 + k = (f + k) + 1 by omega]
    simp only [find_bf_loop] at h ⊢
    split_ifs at h ⊢ <;> first | exact h | exact ih k _ _ _ r h

theorem find_ff_mono {fuel : Nat} {s : Heap} {size r : Nat} (k : Nat)
    (h : find_ff fuel s size = some r) : find_ff (fuel + k) s size = some r := by
  unfold find_ff at h ⊢
  split_ifs at h ⊢
  · exact h
  · exact find_ff_loop_mono _ _ _ _ _ _ h

theorem find_bf_mono {fuel : Nat} {s : Heap} {size r : Nat} (k : Nat)
    (h : find_bf fuel s size = some r) : find_bf (fuel + k) s size = some r := by
  unfold find_bf at h ⊢
  split_ifs at h ⊢
  · exact h
  · exact find_bf_loop_mono _ _ _ _ _ _ _ _ h

/-- What a first-fit search that ends returns, whatever its fuel: `NULL`, or a
free block of the list that is large enough. -/
theorem find_ff_hit {s : Heap} {L : List Blk} {size fuel c : Nat} (hrep : Rep s L)
    (h : find_ff fuel s size = some c) :
    c = NULL ∨ ∃ L1 x L2, L = L1 ++ x :: L2 ∧ c = x.addr ∧ x.isFREE = 1 ∧ size ≤ x.size := by
  obtain ⟨r, hr, _, hhit⟩ := find_ff_spec s L size (fuel + L.length) hrep (by omega)
  rw [find_ff_mono L.length h] at hr
  cases hr
  by_cases hc : c = NULL
  · exact Or.inl hc
  · obtain ⟨L1, x, L2, e1, e2, e3, _⟩ := hhit hc
    exact Or.inr ⟨L1, x, L2, e1, e2, e3.1, e3.2⟩

/-- What a best-fit search that ends returns, whatever its fuel, on a list
whose flags are 0 or 1. -/
theorem find_bf_hit {s : Heap} {L : List Blk} {size fuel c : Nat} (hrep : Rep s L)
    (hflags : ∀ x ∈ L, x.isFREE = 0 ∨ x.isFREE = 1) (h : find_bf fuel s size = some c) :
    c = NULL ∨ ∃ L1 x L2, L = L1 ++ x :: L2 ∧ c = x.addr ∧ x.isFREE = 1 ∧ size ≤ x.size := by
  obtain ⟨r, hr, hgood⟩ := find_bf_sound s L size (fuel + L.length) hrep (by omega)
  rw [find_bf_mono L.length h] at hr
  cases hr
  rcases hgood with hc | ⟨y, hy, e1, e2, e3⟩
  · exact Or.inl hc
  · obtain ⟨L1, L2, e⟩ := List.append_of_mem hy
    refine Or.inr ⟨L1, y, L2, e, e1, ?_, e3⟩
    rcases hflags y hy with h0 | h1
    · exact absurd h0 e2
    · exact h1

/-! ## One allocation call -/

theorem ff_malloc_chosen {s : Heap} {L : List Blk} {size fuel : Nat} {r : Nat × Heap}
    (hwf : WF s L) (hpos : 0 < size) (h : ff_malloc fuel s size = some r) :
    Chosen s L size r := by
  unfold ff_malloc at h
  rw [if_neg (by omega)] at h
  by_cases hnil : s.head = NULL ∧ s.tail = NULL
  · rw [if_pos hnil] at h
    exact Or.inl ⟨(rep_nil_iff hwf.rep).1 hnil, (Option.some.inj h).symm⟩
  · rw [if_neg hnil] at h
    have hne : L ≠ [] := fun e => hnil ((rep_nil_iff hwf.rep).2 e)
    cases hf : find_ff fuel s size with
    | none => rw [hf] at h; cases h
    | some c =>
      rw [hf] at h
      have hr : r = place s size c := (Option.some.inj h).symm
      rcases find_ff_hit hwf.rep hf with hc | ⟨L1, x, L2, e1, e2, e3, e4⟩
      · exact Or.inr (Or.inl ⟨hne, by rw [hr, hc]⟩)
      · exact Or.inr (Or.inr ⟨L1, x, L2, e1, e3, e4, by rw [hr, e2]⟩)

theorem bf_malloc_chosen {s : Heap} {L : List Blk} {size fuel : Nat} {r : Nat × Heap}
    (hwf : WF s L) (hpos : 0 < size) (h : bf_malloc fuel s size = some r) :
    Chosen s L size r := by
  unfold bf_malloc at h
  rw [if_neg (by omega)] at h
  by_cases hnil : s.head = NULL ∧ s.tail = NULL
  · rw [if_pos hnil] at h
    exact Or.inl ⟨(rep_nil_iff hwf.rep).1 hnil, (Option.some.inj h).symm⟩
  · rw [if_neg hnil] at h
    have hne : L ≠ [] := fun e => hnil ((rep_nil_iff hwf.rep).2 e)
    cases hf : find_bf fuel s size with
    | none => rw [hf] at h; cases h
    | some c =>
      rw [hf] at h
      have hr : r = place s size c := (Option.some.inj h).symm
      rcases find_bf_hit hwf.rep hwf.flags hf with hc | ⟨L1, x, L2, e1, e2, e3, e4⟩
      · exact Or.inr (Or.inl ⟨hne, by rw [hr, hc]⟩)
      · exact Or.inr (Or.inr ⟨L1, x, L2, e1, e3, e4, by rw [hr, e2]⟩)

/-- On a well-formed state both allocation functions return when the fuel
covers the length of the list. -/
theorem malloc_total {s : Heap} {L : List Blk} (hwf : WF s L) (size fuel : Nat)
    (hfuel : L.length ≤ fuel) :
    (ff_malloc fuel s size).isSome = true ∧ (bf_malloc fuel s size).isSome = true := by
  obtain ⟨r1, h1, _⟩ := find_ff_spec s L size fuel hwf.rep hfuel
  obtain ⟨r2, h2, _⟩ := find_bf_sound s L size fuel hwf.rep hfuel
  unfold ff_malloc bf_malloc
  rw [h1, h2]
  constructor <;> split_ifs <;> rfl

/-- The outcome of one allocation of `size > 0` bytes on a state that
satisfies the invariant: the new state holds a block list; a non-null result
is the payload pointer of a block of that list which is in use and has at
least `size` bytes; and when `size + sizeof(block_t) < 2 ^ 63` the invariant
holds again, with the result added to the live pointers. -/
theorem chosen_spec {s : Heap} {L : List Blk} {live : List Nat} {size : Nat} {r : Nat × Heap}
    (hwf : WF s L) (hna : NoAdjFree L) (hlive : List.Perm live (payloads L))
    (hc : Chosen s L size r) :
    ∃ L1, Rep r.2 L1 ∧
      (r.1 ≠ NULL → ∃ b ∈ L1, r.1 = b.addr + header_size ∧ b.isFREE = 0 ∧ size ≤ b.size) ∧
      (size + header_size < 2 ^ 63 → Inv (r.2, if r.1 = NULL then live else r.1 :: live)) := by
  have hH : header_size = 32 := rfl
  have hN : NULL = 0 := rfl
  rcases hc with ⟨hL, hr⟩ | ⟨hL, hr⟩ | ⟨L1, x, L2, hL, hx1, hsz, hr⟩
  · subst hL
    subst hr
    rcases first_block_spec hwf size with ⟨e1, e2, _, e4⟩ | ⟨e1, e2, e3⟩
    · refine ⟨[], e2, fun h => absurd e1 h, fun hs => ?_⟩
      rw [if_pos e1]
      exact ⟨[], e4 hs, hna, hlive⟩
    · have hne : (first_block s size).1 ≠ NULL := by rw [e1]; omega
      refine ⟨_, e2, fun _ => ⟨_, List.mem_singleton.2 rfl, e1, rfl, le_refl _⟩, fun hs => ?_⟩
      rw [if_neg hne]
      refine ⟨_, e3 hs, List.chain'_singleton _, ?_⟩
      rw [payloads_cons_busy _ rfl, e1]
      exact List.Perm.cons _ hlive
  · subst hr
    rcases place_miss_spec hwf hL size with ⟨e1, e2, _, e4⟩ | ⟨e1, e2, e3⟩
    · refine ⟨L, e2, fun h => absurd e1 h, fun hs => ?_⟩
      rw [if_pos e1]
      exact ⟨L, e4 hs, hna, hlive⟩
    · have hne : (place s size NULL).1 ≠ NULL := by rw [e1]; omega
      refine ⟨_, e2, fun _ => ⟨⟨s.brk, size, 0⟩, by simp, e1, rfl, le_refl _⟩, fun hs => ?_⟩
      rw [if_neg hne]
      refine ⟨_, e3 hs, noadj_concat hna (Or.inl (by simp)), ?_⟩
      rw [payloads_append, payloads_cons_busy _ rfl, e1]
      exact (List.Perm.cons _ hlive).trans (List.perm_append_singleton _ _).symm
  · subst hL
    subst hr
    obtain ⟨e1, _, e3⟩ := place_hit_spec hwf size hsz
    have hne : (place s size x.addr).1 ≠ NULL := by rw [e1]; omega
    obtain ⟨hn1, hn2⟩ := noadj_split hna
    have hp : List.Perm ((x.addr + header_size) :: live)
        (payloads L1 ++ (x.addr + header_size) :: payloads L2) := by
      rw [payloads_append, payloads_cons_free _ hx1] at hlive
      exact (List.Perm.cons _ hlive).trans List.perm_middle.symm
    rcases e3 with ⟨_, hwf1⟩ | ⟨_, hwf1⟩
    · refine ⟨_, hwf1.rep, fun _ => ⟨⟨x.addr, x.size, 0⟩, by simp, e1, rfl, hsz⟩, fun _ => ?_⟩
      rw [if_neg hne, e1]
      refine ⟨_, hwf1, noadj_mid (noadj_concat (noadj_left hn1) (Or.inl (by simp)))
        (noadj_cons (noadj_tail hn2) (Or.inl (by simp))), ?_⟩
      rw [payloads_append, payloads_cons_busy _ rfl]
      exact hp
    · refine ⟨_, hwf1.rep, fun _ => ⟨⟨x.addr, size, 0⟩, by simp, e1, rfl, le_refl _⟩,
        fun _ => ?_⟩
      rw [if_neg hne, e1]
      refine ⟨_, hwf1, noadj_mid (noadj_concat (noadj_left hn1) (Or.inl (by simp)))
        (noadj_cons (noadj_cons (noadj_tail hn2) (Or.inr (noadj_head_busy hn2 hx1)))
          (Or.inl (by simp))), ?_⟩
      rw [payloads_append, payloads_cons_busy _ rfl, payloads_cons_free _ rfl]
      exact hp

/-! ## One release call, and whole call sequences -/

theorem fwd_facts {t u : Blk} {L2 S : List Blk} (h : Fwd t L2 u S) (hna : NoAdjFree L2) :
    u.isFREE = 1 ∧ payloads S = payloads L2 ∧ NoAdjFree S ∧ ∀ c ∈ S.head?, c.isFREE ≠ 1 := by
  rcases h with ⟨rfl, rfl, hb⟩ | ⟨c, rfl, hc, rfl⟩
  · exact ⟨rfl, rfl, hna, hb⟩
  · exact ⟨rfl, (payloads_cons_free _ hc).symm, noadj_tail hna, noadj_head_busy hna hc⟩

theorem bwd_facts {u M : Blk} {L1 P : List Blk} (h : Bwd L1 u P M) (hu : u.isFREE = 1)
    (hna : NoAdjFree L1) :
    M.isFREE = 1 ∧ payloads P = payloads L1 ∧ NoAdjFree P ∧ ∀ a ∈ P.getLast?, a.isFREE ≠ 1 := by
  rcases h with ⟨rfl, rfl, hb⟩ | ⟨a, rfl, ha, rfl⟩
  · exact ⟨hu, rfl, hna, hb⟩
  · refine ⟨rfl, ?_, noadj_left hna, noadj_last_busy hna ha⟩
    rw [payloads_append, payloads_cons_free _ ha]
    simp [payloads]

theorem inv_iff (s : Heap) (live : List Nat) :
    Inv (s, live) ↔ ∃ L, WF s L ∧ NoAdjFree L ∧ List.Perm live (payloads L) :=
  Iff.rfl

/-- Releasing a live pointer keeps the invariant; the pointer leaves the live
pointers. -/
theorem free_blocks_inv {s : Heap} {live : List Nat} {p : Nat} (hinv : Inv (s, live))
    (hp : p ∈ live) : Inv (free_blocks s p, live.erase p) := by
  obtain ⟨L, hwf, hna, hlive⟩ := hinv
  obtain ⟨t, ht, ht0, rfl⟩ := mem_payloads.1 (hlive.subset hp)
  obtain ⟨L1, L2, rfl⟩ := List.append_of_mem ht
  obtain ⟨u, S, P, M, hfwd, hbwd, hwf1⟩ := free_blocks_spec hwf
  obtain ⟨hn1, hn2⟩ := noadj_split hna
  obtain ⟨f1, f2, f3, f4⟩ := fwd_facts hfwd (noadj_tail hn2)
  obtain ⟨b1, b2, b3, b4⟩ := bwd_facts hbwd f1 (noadj_left hn1)
  have c1 : NoAdjFree (P ++ [M]) := noadj_concat b3 (Or.inr b4)
  have c2 : NoAdjFree (M :: S) := noadj_cons f3 (Or.inr f4)
  refine (inv_iff _ _).2 ⟨P ++ M :: S, hwf1, noadj_mid c1 c2, ?_⟩
  rw [payloads_append, payloads_cons_free _ b1, b2, f2]
  have h1 : List.Perm live ((t.addr + header_size) :: (payloads L1 ++ payloads L2)) := by
    rw [payloads_append, payloads_cons_busy _ ht0] at hlive
    exact hlive.trans List.perm_middle
  have h2 := h1.erase (t.addr + header_size)
  rwa [List.erase_cons_head] at h2

theorem empty_inv {s : Heap} (h : EmptyArena s) : Inv (s, []) := by
  obtain ⟨h1, h2, h3, h4, h5, h6⟩ := h
  exact ⟨[], ⟨⟨trivial, h1, h2⟩, trivial, (fun x hx => by cases hx), h3, h4, h5, h6⟩,
    List.chain'_nil, List.Perm.nil⟩

theorem malloc_inv {s : Heap} {live : List Nat} {size : Nat} {r : Nat × Heap}
    (hinv : Inv (s, live)) (hsz : size < REQUEST_LIMIT)
    (hc : size = 0 ∧ r = (NULL, s) ∨ 0 < size ∧ ∀ L, WF s L → Chosen s L size r) :
    Inv (r.2, if r.1 = NULL then live else r.1 :: live) := by
  have hH : header_size = 32 := rfl
  have hR : REQUEST_LIMIT = 2 ^ 63 - 32 := rfl
  rcases hc with ⟨_, rfl⟩ | ⟨_, hc⟩
  · simpa using hinv
  · obtain ⟨L, hwf, hna, hlive⟩ := hinv
    obtain ⟨_, _, _, h⟩ := chosen_spec hwf hna hlive (hc L hwf)
    exact h (by omega)

theorem ff_malloc_cases {s : Heap} {size fuel : Nat} {r : Nat × Heap}
    (h : ff_malloc fuel s size = some r) :
    size = 0 ∧ r = (NULL, s) ∨ 0 < size ∧ ∀ L, WF s L → Chosen s L size r := by
  by_cases h0 : size = 0
  · subst h0
    simp only [ff_malloc, if_true] at h
    exact Or.inl ⟨rfl, (Option.some.inj h).symm⟩
  · exact Or.inr ⟨by omega, fun L hwf => ff_malloc_chosen hwf (by omega) h⟩

theorem bf_malloc_cases {s : Heap} {size fuel : Nat} {r : Nat × Heap}
    (h : bf_malloc fuel s size = some r) :
    size = 0 ∧ r = (NULL, s) ∨ 0 < size ∧ ∀ L, WF s L → Chosen s L size r := by
  by_cases h0 : size = 0
  · subst h0
    simp only [bf_malloc, if_true] at h
    exact Or.inl ⟨rfl, (Option.some.inj h).symm⟩
  · exact Or.inr ⟨by omega, fun L hwf => bf_malloc_chosen hwf (by omega) h⟩

theorem step_inv {c : Call} {σ σ1 : Heap × List Nat} (hinv : Inv σ)
    (h : step REQUEST_LIMIT c σ = some σ1) : Inv σ1 := by
  obtain ⟨s, live⟩ := σ
  cases c with
  | ff_malloc fuel size =>
    simp only [step] at h
    split_ifs at h with hsz
    cases hm : ff_malloc fuel s size with
    | none => rw [hm] at h; cases h
    | some r =>
      rw [hm] at h
      cases h
      exact malloc_inv hinv hsz (ff_malloc_cases hm)
  | bf_malloc fuel size =>
    simp only [step] at h
    split_ifs at h with hsz
    cases hm : bf_malloc fuel s size with
    | none => rw [hm] at h; cases h
    | some r =>
      rw [hm] at h
      cases h
      exact malloc_inv hinv hsz (bf_malloc_cases hm)
  | ff_free p =>
    simp only [step] at h
    split_ifs at h with hp
    cases h
    exact free_blocks_inv hinv hp
  | bf_free p =>
    simp only [step] at h
    split_ifs at h with hp
    cases h
    exact free_blocks_inv hinv hp

theorem run_inv (cs : List Call) :
    ∀ {σ σ1 : Heap × List Nat}, Inv σ → run REQUEST_LIMIT cs σ = some σ1 → Inv σ1 := by
  induction cs with
  | nil =>
    intro σ σ1 hinv h
    cases h
    exact hinv
  | cons c cs ih =>
    intro σ σ1 hinv h
    simp only [run] at h
    cases hs : step REQUEST_LIMIT c σ with
    | none => rw [hs] at h; cases h
    | some σ2 =>
      rw [hs] at h
      exact ih (step_inv hinv hs) h

/-- Every state reached from an empty arena by allocation calls below
`REQUEST_LIMIT` bytes and releases of live pointers satisfies the invariant. -/
theorem reach_inv {s : Heap} {live : List Nat} (h : Reach REQUEST_LIMIT s live) :
    Inv (s, live) := by
  obtain ⟨s0, cs, h0, hrun⟩ := h
  exact run_inv cs (empty_inv h0) hrun

/-! ## The list as a chain of `next` pointers -/

theorem seg_chain {m : Nat → block_t} {L : List Blk} {q : Nat} (h : Seg m q L NULL) :
    Chain m (hd L NULL) (L.map Blk.addr) := by
  induction L generalizing q with
  | nil => rfl
  | cons x L ih =>
    obtain ⟨h0, hx, hL⟩ := h
    refine ⟨rfl, h0, ?_⟩
    rw [hx]
    exact ih hL

/-- The addresses of a block list are the chain of `next` pointers from `head`. -/
theorem rep_chain {s : Heap} {L : List Blk} (h : Rep s L) :
    Chain s.mem s.head (L.map Blk.addr) := by
  rw [h.2.1]
  exact seg_chain h.1

theorem chain_unique {m : Nat → block_t} {l1 l2 : List Nat} {p : Nat} (h1 : Chain m p l1)
    (h2 : Chain m p l2) : l1 = l2 := by
  induction l1 generalizing p l2 with
  | nil =>
    cases l2 with
    | nil => rfl
    | cons b l2 => exact absurd (h2.1.symm.trans h1) h2.2.1
  | cons a l1 ih =>
    cases l2 with
    | nil => exact absurd (h1.1.symm.trans h2) h1.2.1
    | cons b l2 =>
      obtain ⟨e1, _, c1⟩ := h1
      obtain ⟨e2, _, c2⟩ := h2
      have hab : a = b := e1.symm.trans e2
      subst hab
      rw [ih c1 c2]


/-! ## The allocation postcondition (C4) -/

theorem blk_list_ext (m : Nat → block_t) :
    ∀ (L1 L2 : List Blk), L1.map Blk.addr = L2.map Blk.addr →
      (∀ x ∈ L1, (m x.addr).size = x.size ∧ (m x.addr).isFREE = x.isFREE) →
      (∀ x ∈ L2, (m x.addr).size = x.size ∧ (m x.addr).isFREE = x.isFREE) → L1 = L2 := by
  intro L1
  induction L1 with
  | nil =>
    intro L2 h _ _
    cases L2 with
    | nil => rfl
    | cons y L2 => cases h
  | cons x L1 ih =>
    intro L2 h h1 h2
    cases L2 with
    | nil => cases h
    | cons y L2 =>
      rw [List.map_cons, List.map_cons, List.cons.injEq] at h
      obtain ⟨ha, hrest⟩ := h
      have hx := h1 x (List.mem_cons_self _ _)
      have hy := h2 y (List.mem_cons_self _ _)
      rw [← ha] at hy
      have hxy : x = y := by
        cases x
        cases y
        simp only [Blk.mk.injEq]
        exact ⟨ha, hx.1.symm.trans hy.1, hx.2.symm.trans hy.2⟩
      rw [hxy, ih L2 hrest (fun z hz => h1 z (List.mem_cons_of_mem _ hz))
        (fun z hz => h2 z (List.mem_cons_of_mem _ hz))]

theorem rep_unique {s : Heap} {L1 L2 : List Blk} (h1 : Rep s L1) (h2 : Rep s L2) : L1 = L2 :=
  blk_list_ext s.mem L1 L2 (chain_unique (rep_chain h1) (rep_chain h2))
    (fun _ hx => (seg_mem h1.1 hx).2) (fun _ hx => (seg_mem h2.1 hx).2)

/-- C4, amended. In every state reached from the empty arena by allocation
calls (either policy) of fewer than `2 ^ 63 - sizeof(block_t)` bytes each and
releases of live pointers, and for every `size` with
`0 < size < 2 ^ 63 - sizeof(block_t)`: both allocation functions return (fuel
for one loop round per block is enough), and a successful
`ff_malloc(size)` or `bf_malloc(size)` returns `addr(b) + sizeof(block_t)` for
a block `b` that is in the list after the call, is marked not free and has
`b.size >= size`; the list after the call is again well formed. -/
theorem malloc_postcondition (s : Heap) (live : List Nat) (size : Nat)
    (hreach : Reach REQUEST_LIMIT s live) (hsize : 0 < size) (hlim : size < REQUEST_LIMIT) :
    (∃ L, Rep s L ∧ ∀ fuel, L.length ≤ fuel →
        (ff_malloc fuel s size).isSome = true ∧ (bf_malloc fuel s size).isSome = true) ∧
      ∀ fuel p s1,
        ff_malloc fuel s size = some (p, s1) ∨ bf_malloc fuel s size = some (p, s1) →
        p ≠ NULL →
        ∃ L1 b, WF s1 L1 ∧ b ∈ L1 ∧ Chain s1.mem s1.head (L1.map Blk.addr) ∧
          p = b.addr + header_size ∧ (s1.mem b.addr).isFREE = 0 ∧
          size ≤ (s1.mem b.addr).size := by
  have hbound : size + header_size < 2 ^ 63 := by
    have hR : REQUEST_LIMIT = 2 ^ 63 - 32 := rfl
    have hH : header_size = 32 := rfl
    omega
  obtain ⟨L, hwf, hna, hlive⟩ := reach_inv hreach
  refine ⟨⟨L, hwf.rep, fun fuel hf => malloc_total hwf size fuel hf⟩, ?_⟩
  intro fuel p s1 hm hp
  have hc : Chosen s L size (p, s1) := by
    rcases hm with hm | hm
    · exact ff_malloc_chosen hwf hsize hm
    · exact bf_malloc_chosen hwf hsize hm
  obtain ⟨L1, hrep, hpost, hinv⟩ := chosen_spec hwf hna hlive hc
  obtain ⟨b, hb, e1, e2, e3⟩ := hpost hp
  obtain ⟨_, m1, m2⟩ := seg_mem hrep.1 hb
  obtain ⟨L2, hwf2, _, _⟩ := hinv hbound
  have hwf1 : WF s1 L1 := by
    have hwf3 : WF s1 L2 := hwf2
    rw [rep_unique hrep hwf3.rep]
    exact hwf3
  exact ⟨L1, b, hwf1, hb, rep_chain hrep, e1, by rw [m2]; exact e2, by rw [m1]; exact e3⟩

/-- Witness for C4 at the state after `demo_calls`, for a request of 8 bytes. -/
theorem malloc_postcondition_witness :
    Reach REQUEST_LIMIT (after REQUEST_LIMIT demo_calls).1 (after REQUEST_LIMIT demo_calls).2 ∧
      0 < 8 ∧ 8 < REQUEST_LIMIT ∧
      (ff_malloc 3 (after REQUEST_LIMIT demo_calls).1 8).map Prod.fst = some 4170 ∧
      ((∃ L, Rep (after REQUEST_LIMIT demo_calls).1 L ∧ ∀ fuel, L.length ≤ fuel →
          (ff_malloc fuel (after REQUEST_LIMIT demo_calls).1 8).isSome = true ∧
            (bf_malloc fuel (after REQUEST_LIMIT demo_calls).1 8).isSome = true) ∧
        ∀ fuel p s1,
          ff_malloc fuel (after REQUEST_LIMIT demo_calls).1 8 = some (p, s1) ∨
            bf_malloc fuel (after REQUEST_LIMIT demo_calls).1 8 = some (p, s1) →
          p ≠ NULL →
          ∃ L1 b, WF s1 L1 ∧ b ∈ L1 ∧ Chain s1.mem s1.head (L1.map Blk.addr) ∧
            p = b.addr + header_size ∧ (s1.mem b.addr).isFREE = 0 ∧
            8 ≤ (s1.mem b.addr).size) :=
  ⟨reach_after _ _ (by decide), by decide, by decide, by decide,
    malloc_postcondition _ _ 8 (reach_after _ _ (by decide)) (by decide) (by decide)⟩

theorem wrap_post_eq :
    ff_malloc 2 (after WORD wrap_calls).1 (2 ^ 64 - 112) = some (4208, wrap_post) := by
  have h1 : (ff_malloc 2 (after WORD wrap_calls).1 (2 ^ 64 - 112)).map Prod.fst = some 4208 := by
    decide
  unfold wrap_post
  cases hm : ff_malloc 2 (after WORD wrap_calls).1 (2 ^ 64 - 112) with
  | none => rw [hm] at h1; cases h1
  | some r =>
    rw [hm] at h1
    simp only [Option.map_some', Option.some.injEq] at h1
    simp only [Option.getD_some, Option.some.injEq]
    exact Prod.ext h1 rfl

/-- C4 as stated fails. After `wrap_calls` (an allocation of 8 bytes, an
allocation of `2 ^ 64 - 16` bytes whose `size + sizeof(block_t)` wraps around
to 16, and the release of the latter) the list holds the blocks 4096 (in use)
and 4176 (free, size `2 ^ 64 - 16`). The call `ff_malloc(2 ^ 64 - 112)` hits
the block 4176 and splits it; the address of the remainder wraps around to
4096, the header of the first block. The call returns `4208 = 4176 + 32`, but
afterwards the list that starts at `head` holds the block 4096 only: the
block 4176 whose payload was returned is not in the list. -/
theorem malloc_postcondition_fails_after_wrap :
    Reach WORD (after WORD wrap_calls).1 (after WORD wrap_calls).2 ∧
      Rep (after WORD wrap_calls).1 [⟨4096, 8, 0⟩, ⟨4176, 2 ^ 64 - 16, 1⟩] ∧
      ff_malloc 2 (after WORD wrap_calls).1 (2 ^ 64 - 112) = some (4208, wrap_post) ∧
      4208 = 4176 + header_size ∧
      Chain wrap_post.mem wrap_post.head [4096] ∧
      ¬ ∃ l, Chain wrap_post.mem wrap_post.head l ∧ 4176 ∈ l := by
  have hchain : Chain wrap_post.mem wrap_post.head [4096] := by decide
  refine ⟨reach_after _ _ (by decide), by decide, wrap_post_eq, by decide, hchain, ?_⟩
  rintro ⟨l, hl, hmem⟩
  rw [chain_unique hl hchain] at hmem
  simp at hmem

/-! ## Layout of the blocks in reachable states (C5, C6) -/

/-- C5, amended. In every state reached from the empty arena by allocation
calls (either policy) of fewer than `2 ^ 63 - sizeof(block_t)` bytes each and
releases of live pointers, with `sbrk` handing out memory at ascending
addresses, every block `b` with a successor `n` has
`addr(b) + sizeof(block_t) + b.size <= addr(n)`; the list is strictly
ascending in address and the header-plus-payload ranges of any two blocks are
disjoint. -/
theorem blocks_never_overlap (s : Heap) (live : List Nat)
    (hreach : Reach REQUEST_LIMIT s live) :
    ∃ L, Rep s L ∧
      List.Chain' (fun b n => b.addr + header_size + b.size ≤ n.addr) L ∧
      List.Pairwise (fun b n => b.addr < n.addr) L ∧
      List.Pairwise (fun b n => b.addr + header_size + b.size ≤ n.addr) L := by
  obtain ⟨L, hwf, _, _⟩ := reach_inv hreach
  refine ⟨L, hwf.rep, layout_chain hwf.layout, ?_, layout_pairwise hwf.layout⟩
  refine (layout_pairwise hwf.layout).imp ?_
  intro x y hxy
  have hH : header_size = 32 := rfl
  omega

/-- Witness for C5 at the state after `demo_calls`. -/
theorem blocks_never_overlap_witness :
    Reach REQUEST_LIMIT (after REQUEST_LIMIT demo_calls).1 (after REQUEST_LIMIT demo_calls).2 ∧
      Rep (after REQUEST_LIMIT demo_calls).1 [⟨4096, 10, 0⟩, ⟨4138, 58, 1⟩, ⟨4360, 8, 0⟩] ∧
      ∃ L, Rep (after REQUEST_LIMIT demo_calls).1 L ∧
        List.Chain' (fun b n => b.addr + header_size + b.size ≤ n.addr) L ∧
        List.Pairwise (fun b n => b.addr < n.addr) L ∧
        List.Pairwise (fun b n => b.addr + header_size + b.size ≤ n.addr) L :=
  ⟨reach_after _ _ (by decide), by decide,
    blocks_never_overlap _ _ (reach_after _ _ (by decide))⟩

/-- C5 as stated fails. The call `ff_malloc(2 ^ 64 - 16)` on the empty arena
computes `size + sizeof(block_t) = 16` in `size_t`, obtains 32 bytes from two
calls `sbrk(16)` and records a block of size `2 ^ 64 - 16` at 4096. The next
call `ff_malloc(8)` places its block at 4128, inside the payload range the
first block claims. -/
theorem blocks_overlap_after_wrap :
    Reach WORD (after WORD overlap_calls).1 (after WORD overlap_calls).2 ∧
      Rep (after WORD overlap_calls).1 [⟨4096, 2 ^ 64 - 16, 0⟩, ⟨4128, 8, 0⟩] ∧
      ¬ (4096 + header_size + (2 ^ 64 - 16) ≤ 4128) :=
  ⟨reach_after _ _ (by decide), by decide, by decide⟩

/-- C6, evaluated at its failing input. After two calls `ff_malloc(8)` on the
empty arena with break 4096 the list holds two blocks of size 8, at 4096 and
at 4176. The first block ends at `4096 + 32 + 8 = 4136`: the 40 bytes obtained
by the second `sbrk` call of `allocate_block` lie unused between the blocks,
and the break is at 4256 after 160 bytes for two blocks of 40. -/
theorem gap_after_growth :
    Reach REQUEST_LIMIT (after REQUEST_LIMIT gap_calls).1 (after REQUEST_LIMIT gap_calls).2 ∧
      Rep (after REQUEST_LIMIT gap_calls).1 [⟨4096, 8, 0⟩, ⟨4176, 8, 0⟩] ∧
      4096 + header_size + 8 = 4136 ∧ 4136 ≠ 4176 ∧
      (after REQUEST_LIMIT gap_calls).1.brk = 4256 :=
  ⟨reach_after _ _ (by decide), by decide, by decide, by decide, by decide⟩

/-! ## No two free neighbours (C7) -/

/-- C7, amended. Starting from the empty arena, after every `ff_malloc`,
`bf_malloc`, `ff_free` or `bf_free` call (each allocation asking for fewer
than `2 ^ 63 - sizeof(block_t)` bytes, each release given a live pointer), no
free block of the list has a successor that is also free. -/
theorem no_adjacent_free (s : Heap) (live : List Nat) (hreach : Reach REQUEST_LIMIT s live) :
    ∃ L, Rep s L ∧ List.Chain' (fun b n => ¬ (b.isFREE = 1 ∧ n.isFREE = 1)) L := by
  obtain ⟨L, hwf, hna, _⟩ := reach_inv hreach
  exact ⟨L, hwf.rep, hna⟩

/-- Witness for C7 at the state after `sandwich_calls`. -/
theorem no_adjacent_free_witness :
    Reach REQUEST_LIMIT (after REQUEST_LIMIT sandwich_calls).1
        (after REQUEST_LIMIT sandwich_calls).2 ∧
      Rep (after REQUEST_LIMIT sandwich_calls).1
        [⟨4096, 8, 1⟩, ⟨4176, 8, 0⟩, ⟨4256, 8, 1⟩, ⟨4336, 8, 0⟩] ∧
      ∃ L, Rep (after REQUEST_LIMIT sandwich_calls).1 L ∧
        List.Chain' (fun b n => ¬ (b.isFREE = 1 ∧ n.isFREE = 1)) L :=
  ⟨reach_after _ _ (by decide), by decide, no_adjacent_free _ _ (reach_after _ _ (by decide))⟩

/-- C7 as stated fails. In `adjacent_calls` the blocks 4096 and 4176 (8 bytes
each) and 4256 (`2 ^ 64 - 16` bytes, `size + sizeof(block_t)` wrapped to 16)
are allocated, 4096 and 4256 are released, and `ff_malloc(2 ^ 64 - 112)`
splits the block 4256. The address of the remainder wraps around to 4176, so
`split_block` marks the live block 4176 free. After the call the list from
`head` is 4096, 4176 and both blocks are free. -/
theorem adjacent_free_after_wrap :
    Reach WORD (after WORD adjacent_calls).1 (after WORD adjacent_calls).2 ∧
      Chain (after WORD adjacent_calls).1.mem (after WORD adjacent_calls).1.head [4096, 4176] ∧
      ((after WORD adjacent_calls).1.mem 4096).isFREE = 1 ∧
      ((after WORD adjacent_calls).1.mem 4176).isFREE = 1 :=
  ⟨reach_after _ _ (by decide), by decide, by decide, by decide⟩

/-! ## Three-way coalescing (C8) -/

/-- The header of a block in the middle of a segment. -/
theorem seg_record {m : Nat → block_t} {L1 L2 : List Blk} {x : Blk} {q r : Nat}
    (h : Seg m q (L1 ++ x :: L2) r) (a sz : Nat) (fl : Int) (hx : x = ⟨a, sz, fl⟩) :
    m a = ⟨sz, fl, hd L2 r, lastAddr q L1⟩ := by
  subst hx
  rw [seg_append, seg_cons] at h
  exact h.2.2.1

/-- C8. For every well-formed list with consecutive blocks `a`, `t`, `c`
where `a` and `c` are free, releasing the payload pointer of `t` (`ff_free`
and `bf_free` do the same) leaves in their place one free block at the address
of `a`, of size `a.size + t.size + c.size + 2 * sizeof(block_t)`. Its `prev` is
the block before `a`, its `next` the block after `c`; `t` and `c` are no
longer in the list; `tail` is the merged block when `c` was the tail; the
blocks before `a` and after `c` are unchanged, and the state is well formed
again. -/
theorem three_way_coalescing (s : Heap) (L1 L2 : List Blk) (a t c : Blk)
    (hwf : WF s (L1 ++ a :: t :: c :: L2)) (ha : a.isFREE = 1) (hc : c.isFREE = 1) :
    bf_free s (t.addr + header_size) = ff_free s (t.addr + header_size) ∧
      WF (ff_free s (t.addr + header_size))
        (L1 ++ ⟨a.addr, a.size + t.size + c.size + 2 * header_size, 1⟩ :: L2) ∧
      (ff_free s (t.addr + header_size)).mem a.addr =
        ⟨a.size + t.size + c.size + 2 * header_size, 1, hd L2 NULL, lastAddr NULL L1⟩ ∧
      (L2 = [] → (ff_free s (t.addr + header_size)).tail = a.addr) ∧
      (L2 ≠ [] → (ff_free s (t.addr + header_size)).tail = s.tail) ∧
      ∀ x ∈ L1 ++ ⟨a.addr, a.size + t.size + c.size + 2 * header_size, 1⟩ :: L2,
        x.addr ≠ t.addr ∧ x.addr ≠ c.addr := by
  have hH : header_size = 32 := rfl
  have hff : ff_free s (t.addr + header_size) = free_blocks s (t.addr + header_size) := rfl
  have hbf : bf_free s (t.addr + header_size) = free_blocks s (t.addr + header_size) := rfl
  rw [hff, hbf]
  have hwf0 : WF s ((L1 ++ [a]) ++ t :: c :: L2) := by simpa using hwf
  obtain ⟨u, S, P, M, hfwd, hbwd, hwf1⟩ := free_blocks_spec hwf0
  have hS : S = L2 ∧ u = ⟨t.addr, t.size + c.size + header_size, 1⟩ := by
    rcases hfwd with ⟨_, _, hb⟩ | ⟨c1, e1, _, e3⟩
    · exact absurd hc (hb c (by simp))
    · obtain ⟨rfl, rfl⟩ := List.cons.inj e1
      exact ⟨rfl, e3⟩
  obtain ⟨rfl, rfl⟩ := hS
  have hP : P = L1 ∧ M = ⟨a.addr, a.size + t.size + c.size + 2 * header_size, 1⟩ := by
    rcases hbwd with ⟨_, _, hb⟩ | ⟨a1, e1, _, e3⟩
    · exact absurd ha (hb a (by simp))
    · obtain ⟨rfl, e2⟩ := List.append_inj' e1 rfl
      obtain ⟨rfl, _⟩ := List.cons.inj e2
      refine ⟨rfl, ?_⟩
      rw [e3, Blk.mk.injEq]
      refine ⟨rfl, ?_, rfl⟩
      show a.size + (t.size + c.size + header_size) + header_size = _
      omega
  obtain ⟨rfl, rfl⟩ := hP
  have hwf2 := hwf1
  have hmem := seg_record hwf2.rep.1 a.addr (a.size + t.size + c.size + 2 * header_size) 1 rfl
  have hdist : Distinct (P ++ a :: t :: c :: S) := layout_distinct hwf.layout
  unfold Distinct at hdist
  simp only [List.pairwise_append, List.pairwise_cons, List.mem_cons, forall_eq_or_imp] at hdist
  obtain ⟨_, ⟨⟨hat, hac, _⟩, ⟨htc, htS⟩, ⟨hcS, _⟩⟩, hcross⟩ := hdist
  refine ⟨rfl, hwf2, hmem, ?_, ?_, ?_⟩
  · intro hnil
    rw [hwf2.rep.2.2, hnil, lastAddr_append]
    rfl
  · intro hne
    rw [hwf2.rep.2.2, hwf.rep.2.2, lastAddr_append, lastAddr_append]
    cases S with
    | nil => exact absurd rfl hne
    | cons y S => rfl
  · intro x hx
    rcases List.mem_append.1 hx with hx | hx
    · exact ⟨(hcross x hx).2.1, (hcross x hx).2.2.1⟩
    · rcases List.mem_cons.1 hx with rfl | hx
      · exact ⟨hat, hac⟩
      · exact ⟨(htS x hx).symm, (hcS x hx).symm⟩

/-- Witness for C8: in the state after `sandwich_calls` the blocks 4096 and
4256 are free around the live block 4176; releasing 4208 leaves one free block
of `8 + 8 + 8 + 64 = 88` bytes at 4096 before the block 4336. -/
theorem three_way_coalescing_witness :
    WF (after REQUEST_LIMIT sandwich_calls).1
        ([] ++ ⟨4096, 8, 1⟩ :: ⟨4176, 8, 0⟩ :: ⟨4256, 8, 1⟩ :: [⟨4336, 8, 0⟩]) ∧
      Rep (ff_free (after REQUEST_LIMIT sandwich_calls).1 4208) [⟨4096, 88, 1⟩, ⟨4336, 8, 0⟩] ∧
      WF (ff_free (after REQUEST_LIMIT sandwich_calls).1 (4176 + header_size))
        ([] ++ ⟨4096, 8 + 8 + 8 + 2 * header_size, 1⟩ :: [⟨4336, 8, 0⟩]) :=
  ⟨by decide, by decide,
    (three_way_coalescing (after REQUEST_LIMIT sandwich_calls).1 [] [⟨4336, 8, 0⟩]
      ⟨4096, 8, 1⟩ ⟨4176, 8, 0⟩ ⟨4256, 8, 1⟩ (by decide) rfl rfl).2.1⟩

/-! ## Splitting (C9) -/

/-- C9. Under either policy, when the search hits the block `b` of a
well-formed list and `b.size >= req + sizeof(block_t)` with `req > 0` (so
`req + sizeof(block_t)` does not wrap around), the allocation returns the
payload pointer of `b` and leaves the state of `split_block`: `b` has size
`req` and is not free, its successor is a new free block at
`addr(b) + sizeof(block_t) + req` of size `b.size - req - sizeof(block_t)`,
whose successor is the old successor of `b` (the new block is `tail` when `b`
was), all other blocks are unchanged, and
`req + sizeof(block_t) + new.size = b.size`. -/
theorem split_conserves_bytes (s : Heap) (L1 L2 : List Blk) (b : Blk) (req fuel : Nat)
    (hwf : WF s (L1 ++ b :: L2)) (hreq : 0 < req) (hfit : req + header_size ≤ b.size) :
    (find_ff fuel s req = some b.addr →
        ff_malloc fuel s req = some (b.addr + header_size, (split_block s b.addr req).2)) ∧
      (find_bf fuel s req = some b.addr →
        bf_malloc fuel s req = some (b.addr + header_size, (split_block s b.addr req).2)) ∧
      WF (split_block s b.addr req).2
        (L1 ++ ⟨b.addr, req, 0⟩ ::
          ⟨b.addr + header_size + req, b.size - req - header_size, 1⟩ :: L2) ∧
      (L2 = [] → (split_block s b.addr req).2.tail = b.addr + header_size + req) ∧
      req + header_size + (b.size - req - header_size) = b.size := by
  have hH : header_size = 32 := rfl
  have hW : WORD = 2 ^ 64 := rfl
  have hle := hwf.brk_le
  have hmax := hwf.brk_max_lt
  have hbb := layout_below hwf.layout b (by simp)
  have hbm := seg_mem hwf.rep.1 (show b ∈ L1 ++ b :: L2 by simp)
  obtain ⟨e1, _, e3⟩ := place_hit_spec hwf req (show req ≤ b.size by omega)
  have hcond : (s.mem b.addr).size ≥ (req + header_size) % WORD := by
    rw [hbm.2.1, Nat.mod_eq_of_lt (by omega)]
    exact hfit
  have hplace : place s req b.addr = (b.addr + header_size, (split_block s b.addr req).2) := by
    refine Prod.ext e1 ?_
    rw [place_hit_eq s req b.addr hbm.1, if_pos hcond]
  have hwf1 : WF (split_block s b.addr req).2
      (L1 ++ ⟨b.addr, req, 0⟩ ::
        ⟨b.addr + header_size + req, b.size - req - header_size, 1⟩ :: L2) := by
    rcases e3 with ⟨hlt, _⟩ | ⟨_, h⟩
    · omega
    · rw [hplace] at h
      exact h
  have hnil : ¬ (s.head = NULL ∧ s.tail = NULL) :=
    fun h => by simpa using (rep_nil_iff hwf.rep).1 h
  refine ⟨?_, ?_, hwf1, ?_, by omega⟩
  · intro hf
    unfold ff_malloc
    rw [if_neg (by omega), if_neg hnil, hf]
    show some (place s req b.addr) = _
    rw [hplace]
  · intro hf
    unfold bf_malloc
    rw [if_neg (by omega), if_neg hnil, hf]
    show some (place s req b.addr) = _
    rw [hplace]
  · intro h
    rw [hwf1.rep.2.2, h, lastAddr_append]
    rfl

/-- Witness for C9: a request of 10 bytes on a free block of size 100 (the
state after `single_calls`) gives a used block of size 10 at 4096 and a free
block of size `100 - 10 - 32 = 58` at 4138. -/
theorem split_conserves_bytes_witness :
    WF (after REQUEST_LIMIT single_calls).1 ([] ++ ⟨4096, 100, 1⟩ :: []) ∧
      find_ff 1 (after REQUEST_LIMIT single_calls).1 10 = some 4096 ∧
      find_bf 1 (after REQUEST_LIMIT single_calls).1 10 = some 4096 ∧
      Rep (split_block (after REQUEST_LIMIT single_calls).1 4096 10).2
        [⟨4096, 10, 0⟩, ⟨4138, 58, 1⟩] ∧
      10 + header_size + (100 - 10 - header_size) = 100 :=
  ⟨by decide, by decide, by decide, by decide,
    (split_conserves_bytes (after REQUEST_LIMIT single_calls).1 [] [] ⟨4096, 100, 1⟩ 10 1
      (by decide) (by decide) (by decide)).2.2.2.2⟩

/-! ## Total free size (C10) -/

theorem free_bytes_cons (x : Blk) (L : List Blk) :
    free_bytes (x :: L) =
      (if x.isFREE = 1 then x.size + header_size else 0) + free_bytes L := by
  unfold free_bytes
  by_cases h : x.isFREE = 1 <;> simp [h]

theorem total_loop_spec (m : Nat → block_t) (L : List Blk) :
    ∀ (q fuel res : Nat), Seg m q L NULL → L.length ≤ fuel → res < WORD →
      get_total_free_size_loop m fuel (hd L NULL) res = some ((res + free_bytes L) % WORD) := by
  induction L with
  | nil =>
    intro q fuel res _ _ hres
    have h0 : hd ([] : List Blk) NULL = NULL := rfl
    have hfb : free_bytes [] = 0 := rfl
    rw [h0, hfb, Nat.add_zero, Nat.mod_eq_of_lt hres]
    cases fuel <;> simp [get_total_free_size_loop]
  | cons x L ih =>
    intro q fuel res hs hf hres
    obtain ⟨hx0, hx, hL⟩ := hs
    obtain ⟨f, rfl⟩ : ∃ f, fuel = f + 1 := ⟨fuel - 1, by simp at hf; omega⟩
    have hlen : L.length ≤ f := by simpa using hf
    have hWpos : 0 < WORD := by decide
    have hhd : hd (x :: L) NULL = x.addr := rfl
    rw [hhd]
    simp only [get_total_free_size_loop, hx0, if_false, hx]
    rw [free_bytes_cons]
    by_cases hfree : x.isFREE = 1
    · rw [if_pos hfree, if_pos hfree, ih x.addr f _ hL hlen (Nat.mod_lt _ hWpos)]
      congr 1
      rw [Nat.add_mod, Nat.mod_mod, ← Nat.add_mod]
      congr 1
      omega
    · rw [if_neg hfree, if_neg hfree, ih x.addr f _ hL hlen hres, Nat.zero_add]

theorem layout_free_bytes {L : List Blk} {e : Nat} (h : Layout L e) :
    hd L e + free_bytes L ≤ e := by
  induction L with
  | nil => exact le_refl _
  | cons x L ih =>
    obtain ⟨hx, hL⟩ := h
    have := ih hL
    rw [free_bytes_cons]
    show x.addr + _ ≤ e
    split_ifs <;> omega

/-- C10, amended. For every block list, `get_total_free_size` returns (with
fuel for one loop round per block) the sum of `size + sizeof(block_t)` over
the blocks marked free, reduced modulo `2 ^ 64`, the range of its
`unsigned long` result. The result is exactly the sum whenever the sum is
below `2 ^ 64`, and this is so in every well-formed state. The function reads
the state and returns a number: the state is left unchanged. -/
theorem total_free_size_mod (s : Heap) (L : List Blk) (fuel : Nat) (hrep : Rep s L)
    (hfuel : L.length ≤ fuel) :
    get_total_free_size fuel s = some (free_bytes L % WORD) ∧
      (free_bytes L < WORD → get_total_free_size fuel s = some (free_bytes L)) ∧
      (WF s L → get_total_free_size fuel s = some (free_bytes L)) := by
  have hmain : get_total_free_size fuel s = some (free_bytes L % WORD) := by
    unfold get_total_free_size
    rw [hrep.2.1, total_loop_spec s.mem L NULL fuel 0 hrep.1 hfuel (by decide), Nat.zero_add]
  refine ⟨hmain, fun h => ?_, fun hwf => ?_⟩
  · rw [hmain, Nat.mod_eq_of_lt h]
  · have h1 := layout_free_bytes hwf.layout
    have h2 := hwf.brk_le
    have h3 := hwf.brk_max_lt
    rw [hmain, Nat.mod_eq_of_lt (by omega)]

/-- Witness for C10 on `free3`: three free blocks of sizes 10, 50 and 20 give
`10 + 50 + 20 + 3 * 32 = 176`. -/
theorem total_free_size_mod_witness :
    Rep free3 free3_blocks ∧ free_bytes free3_blocks = 176 ∧
      get_total_free_size 3 free3 = some 176 ∧
      get_total_free_size 3 free3 = some (free_bytes free3_blocks % WORD) :=
  ⟨by decide, by decide, by decide,
    (total_free_size_mod free3 free3_blocks 3 (by decide) (by decide)).1⟩

/-- C10 as stated fails. After `huge_calls` the list holds one free block of
size `2 ^ 64 - 16` (allocated by `ff_malloc(2 ^ 64 - 16)`, whose
`size + sizeof(block_t)` wraps around to 16, and released again). The sum of
`size + sizeof(block_t)` over the free blocks is `2 ^ 64 + 16`, and
`get_total_free_size` returns 16. -/
theorem total_free_size_wraps :
    Reach WORD (after WORD huge_calls).1 (after WORD huge_calls).2 ∧
      Rep (after WORD huge_calls).1 [⟨4096, 2 ^ 64 - 16, 1⟩] ∧
      free_bytes [⟨4096, 2 ^ 64 - 16, 1⟩] = 2 ^ 64 + 16 ∧
      get_total_free_size 1 (after WORD huge_calls).1 = some 16 :=
  ⟨reach_after _ _ (by decide), by decide, by decide, by decide⟩

/-! ## Largest block (C11) -/

theorem largest_loop_spec (m : Nat → block_t) (L : List Blk) :
    ∀ (q fuel res : Nat), Seg m q L NULL → L.length ≤ fuel →
      get_largest_loop m fuel (hd L NULL) res = some (max res (largest L)) := by
  induction L with
  | nil =>
    intro q fuel res _ _
    have h0 : hd ([] : List Blk) NULL = NULL := rfl
    have hl : largest [] = 0 := rfl
    rw [h0, hl, Nat.max_zero]
    cases fuel <;> simp [get_largest_loop]
  | cons x L ih =>
    intro q fuel res hs hf
    obtain ⟨hx0, hx, hL⟩ := hs
    obtain ⟨f, rfl⟩ : ∃ f, fuel = f + 1 := ⟨fuel - 1, by simp at hf; omega⟩
    have hlen : L.length ≤ f := by simpa using hf
    have hhd : hd (x :: L) NULL = x.addr := rfl
    have hl : largest (x :: L) = max x.size (largest L) := rfl
    rw [hhd, hl]
    simp only [get_largest_loop, hx0, if_false, hx]
    rw [ih x.addr f _ hL hlen]
    congr 1
    split_ifs <;> omega

theorem largest_ge (L : List Blk) : ∀ x ∈ L, x.size ≤ largest L := by
  induction L with
  | nil => intro x hx; cases hx
  | cons y L ih =>
    intro x hx
    have hl : largest (y :: L) = max y.size (largest L) := rfl
    rcases List.mem_cons.1 hx with rfl | hx
    · rw [hl]; exact Nat.le_max_left _ _
    · rw [hl]; exact (ih x hx).trans (Nat.le_max_right _ _)

theorem largest_attained (L : List Blk) (hne : L ≠ []) : ∃ x ∈ L, x.size = largest L := by
  induction L with
  | nil => exact absurd rfl hne
  | cons y L ih =>
    have hl : largest (y :: L) = max y.size (largest L) := rfl
    by_cases hL : L = []
    · subst hL
      exact ⟨y, by simp, by rw [hl]; simp [largest]⟩
    · obtain ⟨x, hx, hxl⟩ := ih hL
      by_cases hc : largest L ≤ y.size
      · exact ⟨y, by simp, by rw [hl]; omega⟩
      · exact ⟨x, by simp [hx], by rw [hl, hxl]; omega⟩

/-- C11. For every block list, `get_largest_free_data_segment_size` returns
(with fuel for one loop round per block) the largest `size` among all blocks
of the list, whatever their free flag: no block is larger, a block of the list
has this size when the list is not empty, and the result is 0 for the empty
list. The function reads the state and returns a number: the state is left
unchanged. -/
theorem largest_segment_all_blocks (s : Heap) (L : List Blk) (fuel : Nat) (hrep : Rep s L)
    (hfuel : L.length ≤ fuel) :
    get_largest_free_data_segment_size fuel s = some (largest L) ∧
      (∀ x ∈ L, x.size ≤ largest L) ∧
      (L ≠ [] → ∃ x ∈ L, x.size = largest L) ∧
      (L = [] → largest L = 0) := by
  refine ⟨?_, largest_ge L, largest_attained L, fun h => by rw [h]; rfl⟩
  unfold get_largest_free_data_segment_size
  rw [hrep.2.1, largest_loop_spec s.mem L NULL fuel 0 hrep.1 hfuel, Nat.zero_max]

/-- Witness for C11: after `mixed_calls` the list holds a block of 100 bytes
in use and a free block of 8 bytes; the function returns 100. -/
theorem largest_segment_all_blocks_witness :
    Rep (after REQUEST_LIMIT mixed_calls).1 [⟨4096, 100, 0⟩, ⟨4360, 8, 1⟩] ∧
      get_largest_free_data_segment_size 2 (after REQUEST_LIMIT mixed_calls).1 = some 100 ∧
      get_largest_free_data_segment_size 2 (after REQUEST_LIMIT mixed_calls).1 =
        some (largest [⟨4096, 100, 0⟩, ⟨4360, 8, 1⟩]) :=
  ⟨by decide, by decide,
    (largest_segment_all_blocks (after REQUEST_LIMIT mixed_calls).1
      [⟨4096, 100, 0⟩, ⟨4360, 8, 1⟩] 2 (by decide) (by decide)).1⟩

/-! ## Requests that change nothing (C12, C14) -/

/-- C12. In every state, `ff_malloc(0)` and `bf_malloc(0)` return `NULL` and
the state after the call is the state before it (`head`, `tail`, every block
header and the break), so `get_total_free_size` returns the same value before
and after. -/
theorem malloc_zero (s : Heap) (fuel : Nat) :
    ff_malloc fuel s 0 = some (NULL, s) ∧ bf_malloc fuel s 0 = some (NULL, s) ∧
      ∀ r, ff_malloc fuel s 0 = some r ∨ bf_malloc fuel s 0 = some r →
        r.1 = NULL ∧ ∀ f, get_total_free_size f r.2 = get_total_free_size f s := by
  have h1 : ff_malloc fuel s 0 = some (NULL, s) := by simp [ff_malloc]
  have h2 : bf_malloc fuel s 0 = some (NULL, s) := by simp [bf_malloc]
  refine ⟨h1, h2, ?_⟩
  intro r hr
  rw [h1, h2] at hr
  have : r = (NULL, s) := by
    rcases hr with h | h <;> exact (Option.some.inj h).symm
  subst this
  exact ⟨rfl, fun _ => rfl⟩

/-- C14. In every state, `ff_free(NULL)` and `bf_free(NULL)` return the state
unchanged (`head`, `tail` and every block header), so `get_total_free_size`
and `get_largest_free_data_segment_size` return the same values before and
after. -/
theorem free_null (s : Heap) :
    ff_free s NULL = s ∧ bf_free s NULL = s ∧
      (∀ f, get_total_free_size f (ff_free s NULL) = get_total_free_size f s ∧
        get_total_free_size f (bf_free s NULL) = get_total_free_size f s ∧
        get_largest_free_data_segment_size f (ff_free s NULL) =
          get_largest_free_data_segment_size f s ∧
        get_largest_free_data_segment_size f (bf_free s NULL) =
          get_largest_free_data_segment_size f s) := by
  have h1 : ff_free s NULL = s := by simp [ff_free, free_blocks]
  have h2 : bf_free s NULL = s := by simp [bf_free, free_blocks]
  refine ⟨h1, h2, fun f => ?_⟩
  rw [h1, h2]
  exact ⟨rfl, rfl, rfl, rfl⟩

/-! ## Arena growth (C13, C15, C16) -/

/-- C13, evaluated at its failing input. On `tight_arena` (empty, break 4096,
room for 54 bytes) `ff_malloc(8)` and `bf_malloc(8)` need 40 bytes. The first
`sbrk(40)` of `allocate_block` succeeds and moves the break to 4136, the
second one, inside the failure test, fails. The calls return `NULL` with
`head` and `tail` still null, but the break has moved from 4096 to 4136. -/
theorem growth_failure_moves_break :
    EmptyArena tight_arena ∧ tight_arena.brk = 4096 ∧
      (sbrk tight_arena 40).1 = 4096 ∧ (sbrk (sbrk tight_arena 40).2 40).1 = SBRK_FAILED ∧
      (ff_malloc 0 tight_arena 8).map (fun r => (r.1, r.2.head, r.2.tail, r.2.brk)) =
        some (NULL, NULL, NULL, 4136) ∧
      (bf_malloc 0 tight_arena 8).map (fun r => (r.1, r.2.head, r.2.tail, r.2.brk)) =
        some (NULL, NULL, NULL, 4136) :=
  ⟨by decide, by decide, by decide, by decide, by decide, by decide⟩

/-- C16, evaluated at its failing input. On `arena0` (break 4096) the call
`allocate_block(8)` returns the block 4096 with size 8, flag 0 and no
neighbours, and leaves the break at `4176 = 4096 + 2 * (8 + 32)`: it has
obtained 80 bytes from two `sbrk(40)` calls, not `8 + 32 = 40`. -/
theorem growth_doubles_increment :
    arena0.brk = 4096 ∧ (allocate_block arena0 8).1 = 4096 ∧
      (allocate_block arena0 8).2.mem 4096 = ⟨8, 0, NULL, NULL⟩ ∧
      (allocate_block arena0 8).2.brk = 4176 ∧
      4176 = 4096 + 2 * (8 + header_size) ∧ 4176 ≠ 4096 + (8 + header_size) :=
  ⟨by decide, by decide, by decide, by decide, by decide, by decide⟩

theorem place_hit_cond {s : Heap} {L1 L2 : List Blk} {b : Blk} (hwf : WF s (L1 ++ b :: L2))
    (req : Nat) (hle : req ≤ b.size) :
    ((s.mem b.addr).size ≥ (req + header_size) % WORD ↔ req + header_size ≤ b.size) ∧
      (b.addr + header_size) % WORD = b.addr + header_size := by
  have hH : header_size = 32 := rfl
  have hW : WORD = 2 ^ 64 := rfl
  have h1 := hwf.brk_le
  have h2 := hwf.brk_max_lt
  have hbb := layout_below hwf.layout b (by simp)
  have hbm := seg_mem hwf.rep.1 (show b ∈ L1 ++ b :: L2 by simp)
  rw [hbm.2.1, Nat.mod_eq_of_lt (show req + header_size < WORD by omega),
    Nat.mod_eq_of_lt (show b.addr + header_size < WORD by omega)]
  exact ⟨Iff.rfl, rfl⟩

/-- C17. Under either policy, when the search hits the block `b` of a
well-formed list with `req <= b.size < req + sizeof(block_t)`, the allocation
returns `addr(b) + sizeof(block_t)` and only writes the flag of `b`: `b` is
not free and keeps its size, no block is created, and `head`, `tail`, the
break, all links and every other block are unchanged. -/
theorem split_skipped_on_small_slack (s : Heap) (L1 L2 : List Blk) (b : Blk) (req fuel : Nat)
    (hwf : WF s (L1 ++ b :: L2)) (hreq : 0 < req) (hle : req ≤ b.size)
    (hlt : b.size < req + header_size) :
    (find_ff fuel s req = some b.addr →
        ff_malloc fuel s req = some (b.addr + header_size,
          { s with mem := store s.mem b.addr { s.mem b.addr with isFREE := 0 } })) ∧
      (find_bf fuel s req = some b.addr →
        bf_malloc fuel s req = some (b.addr + header_size,
          { s with mem := store s.mem b.addr { s.mem b.addr with isFREE := 0 } })) ∧
      WF { s with mem := store s.mem b.addr { s.mem b.addr with isFREE := 0 } }
        (L1 ++ ⟨b.addr, b.size, 0⟩ :: L2) ∧
      store s.mem b.addr { s.mem b.addr with isFREE := 0 } b.addr =
        ⟨b.size, 0, hd L2 NULL, lastAddr NULL L1⟩ ∧
      ∀ a, a ≠ b.addr → store s.mem b.addr { s.mem b.addr with isFREE := 0 } a = s.mem a := by
  have hH : header_size = 32 := rfl
  have hbm := seg_mem hwf.rep.1 (show b ∈ L1 ++ b :: L2 by simp)
  obtain ⟨hc1, hc2⟩ := place_hit_cond hwf req hle
  have hcond : ¬ (s.mem b.addr).size ≥ (req + header_size) % WORD := fun h => by
    have := hc1.1 h
    omega
  have hplace : place s req b.addr = (b.addr + header_size,
      { s with mem := store s.mem b.addr { s.mem b.addr with isFREE := 0 } }) := by
    rw [place_hit_eq s req b.addr hbm.1, if_neg hcond, hc2]
  have hwf1 : WF { s with mem := store s.mem b.addr { s.mem b.addr with isFREE := 0 } }
      (L1 ++ ⟨b.addr, b.size, 0⟩ :: L2) := by
    obtain ⟨_, _, e3⟩ := place_hit_spec hwf req hle
    rcases e3 with ⟨_, h⟩ | ⟨h, _⟩
    · rw [hplace] at h
      exact h
    · omega
  have hnil : ¬ (s.head = NULL ∧ s.tail = NULL) :=
    fun h => by simpa using (rep_nil_iff hwf.rep).1 h
  have hrec := seg_record hwf1.rep.1 b.addr b.size 0 rfl
  refine ⟨?_, ?_, hwf1, hrec, fun a ha => store_other _ _ ha⟩
  · intro hf
    unfold ff_malloc
    rw [if_neg (by omega), if_neg hnil, hf]
    show some (place s req b.addr) = _
    rw [hplace]
  · intro hf
    unfold bf_malloc
    rw [if_neg (by omega), if_neg hnil, hf]
    show some (place s req b.addr) = _
    rw [hplace]

/-- Witness for C17: a request of 80 bytes on a free block of 100 bytes (the
state after `single_calls`) is served by the whole block. -/
theorem split_skipped_on_small_slack_witness :
    WF (after REQUEST_LIMIT single_calls).1 ([] ++ ⟨4096, 100, 1⟩ :: []) ∧
      find_ff 1 (after REQUEST_LIMIT single_calls).1 80 = some 4096 ∧
      (ff_malloc 1 (after REQUEST_LIMIT single_calls).1 80).map Prod.fst = some 4128 ∧
      WF { (after REQUEST_LIMIT single_calls).1 with
          mem := store (after REQUEST_LIMIT single_calls).1.mem 4096
            { (after REQUEST_LIMIT single_calls).1.mem 4096 with isFREE := 0 } }
        ([] ++ ⟨4096, 100, 0⟩ :: []) :=
  ⟨by decide, by decide, by decide,
    (split_skipped_on_small_slack (after REQUEST_LIMIT single_calls).1 [] [] ⟨4096, 100, 1⟩ 80 1
      (by decide) (by decide) (by decide) (by decide)).2.2.1⟩

/-- C18, amended. In every well-formed state and for every request
`req > 0` that hits a block `b` (`req <= b.size`), the allocation splits `b`
exactly when `b.size >= req + sizeof(block_t)`; `ff_malloc` and `bf_malloc`
then return `addr(b) + sizeof(block_t)` and the new trailing free block has
size `b.size - req - sizeof(block_t)` with
`req + sizeof(block_t) + new.size = b.size`, so its size is never negative
(nothing wraps around), and it is 0 exactly when
`b.size = req + sizeof(block_t)`. -/
theorem split_remainder_size (s : Heap) (L1 L2 : List Blk) (b : Blk) (req fuel : Nat)
    (hwf : WF s (L1 ++ b :: L2)) (hreq : 0 < req) (hle : req ≤ b.size) :
    ((s.mem b.addr).size ≥ (req + header_size) % WORD ↔ req + header_size ≤ b.size) ∧
      (req + header_size ≤ b.size →
        (find_ff fuel s req = some b.addr →
          ff_malloc fuel s req = some (b.addr + header_size, (split_block s b.addr req).2)) ∧
        (find_bf fuel s req = some b.addr →
          bf_malloc fuel s req = some (b.addr + header_size, (split_block s b.addr req).2)) ∧
        WF (split_block s b.addr req).2
          (L1 ++ ⟨b.addr, req, 0⟩ ::
            ⟨b.addr + header_size + req, b.size - req - header_size, 1⟩ :: L2) ∧
        (split_block s b.addr req).2.mem (b.addr + header_size + req) =
          ⟨b.size - req - header_size, 1, hd L2 NULL, b.addr⟩ ∧
        req + header_size + (b.size - req - header_size) = b.size ∧
        (b.size - req - header_size = 0 ↔ b.size = req + header_size)) := by
  have hH : header_size = 32 := rfl
  have hbm := seg_mem hwf.rep.1 (show b ∈ L1 ++ b :: L2 by simp)
  obtain ⟨hc1, hc2⟩ := place_hit_cond hwf req hle
  refine ⟨hc1, fun hfit => ?_⟩
  obtain ⟨e1, _, e3⟩ := place_hit_spec hwf req hle
  have hplace : place s req b.addr = (b.addr + header_size, (split_block s b.addr req).2) := by
    refine Prod.ext e1 ?_
    rw [place_hit_eq s req b.addr hbm.1, if_pos (hc1.2 hfit)]
  have hwf1 : WF (split_block s b.addr req).2
      (L1 ++ ⟨b.addr, req, 0⟩ ::
        ⟨b.addr + header_size + req, b.size - req - header_size, 1⟩ :: L2) := by
    rcases e3 with ⟨hlt, _⟩ | ⟨_, h⟩
    · omega
    · rw [hplace] at h
      exact h
  have hseg : Seg (split_block s b.addr req).2.mem NULL
      ((L1 ++ [⟨b.addr, req, 0⟩]) ++
        ⟨b.addr + header_size + req, b.size - req - header_size, 1⟩ :: L2) NULL := by
    have := hwf1.rep.1
    rw [List.append_assoc]
    exact this
  have hrec := seg_record hseg (b.addr + header_size + req) (b.size - req - header_size) 1 rfl
  have hlast : lastAddr NULL (L1 ++ [⟨b.addr, req, 0⟩]) = b.addr := by
    rw [lastAddr_append]; rfl
  rw [hlast] at hrec
  have hnil : ¬ (s.head = NULL ∧ s.tail = NULL) :=
    fun h => by simpa using (rep_nil_iff hwf.rep).1 h
  refine ⟨?_, ?_, hwf1, hrec, by omega, by omega⟩
  · intro hf
    unfold ff_malloc
    rw [if_neg (by omega), if_neg hnil, hf]
    show some (place s req b.addr) = _
    rw [hplace]
  · intro hf
    unfold bf_malloc
    rw [if_neg (by omega), if_neg hnil, hf]
    show some (place s req b.addr) = _
    rw [hplace]

/-- Witness for C18 (amended): a request of 10 bytes on a free block of 100
bytes leaves a remainder of 58 bytes. -/
theorem split_remainder_size_witness :
    WF (after REQUEST_LIMIT single_calls).1 ([] ++ ⟨4096, 100, 1⟩ :: []) ∧ 0 < 10 ∧ 10 ≤ 100 ∧
      Rep (split_block (after REQUEST_LIMIT single_calls).1 4096 10).2
        [⟨4096, 10, 0⟩, ⟨4138, 58, 1⟩] ∧
      (((after REQUEST_LIMIT single_calls).1.mem 4096).size ≥ (10 + header_size) % WORD ↔
        10 + header_size ≤ 100) :=
  ⟨by decide, by decide, by decide, by decide,
    (split_remainder_size (after REQUEST_LIMIT single_calls).1 [] [] ⟨4096, 100, 1⟩ 10 1
      (by decide) (by decide) (by decide)).1⟩

theorem zero_post_eq :
    ff_malloc 1 (after REQUEST_LIMIT single_calls).1 68 = some (4128, zero_post) := by
  have h1 : (ff_malloc 1 (after REQUEST_LIMIT single_calls).1 68).map Prod.fst = some 4128 := by
    decide
  unfold zero_post
  cases hm : ff_malloc 1 (after REQUEST_LIMIT single_calls).1 68 with
  | none => rw [hm] at h1; cases h1
  | some r =>
    rw [hm] at h1
    simp only [Option.map_some', Option.some.injEq] at h1
    simp only [Option.getD_some, Option.some.injEq]
    exact Prod.ext h1 rfl

/-- C18 as stated fails. After `single_calls` the list holds one free block
of 100 bytes at 4096. The call `ff_malloc(68)` finds `100 >= 68 + 32` and
splits the block: the new trailing free block at 4196 has size 0. -/
theorem split_leaves_empty_remainder :
    Reach REQUEST_LIMIT (after REQUEST_LIMIT single_calls).1
        (after REQUEST_LIMIT single_calls).2 ∧
      Rep (after REQUEST_LIMIT single_calls).1 [⟨4096, 100, 1⟩] ∧
      ff_malloc 1 (after REQUEST_LIMIT single_calls).1 68 = some (4128, zero_post) ∧
      Rep zero_post [⟨4096, 68, 0⟩, ⟨4196, 0, 1⟩] ∧
      (zero_post.mem 4196).size = 0 ∧ (zero_post.mem 4196).isFREE = 1 :=
  ⟨reach_after _ _ (by decide), by decide, zero_post_eq, by decide, by decide, by decide⟩

/-! ## Well-formedness of the list over all call sequences (C19) -/

theorem seg_links {m : Nat → block_t} :
    ∀ (L : List Blk) (q r : Nat), Seg m q L r →
      List.Chain' (fun b n => (m b.addr).next = n.addr ∧ (m n.addr).prev = b.addr) L := by
  intro L
  induction L with
  | nil => intro q r _; exact List.chain'_nil
  | cons x L ih =>
    intro q r h
    cases L with
    | nil => exact List.chain'_singleton x
    | cons y L =>
      obtain ⟨_, hx, hrest⟩ := h
      have hy := hrest.2.1
      refine List.chain'_cons.2 ⟨⟨?_, ?_⟩, ih x.addr r hrest⟩
      · rw [hx]; rfl
      · rw [hy]

theorem chain_self_loop {m : Nat → block_t} {p : Nat} (hp : p ≠ NULL)
    (hnext : (m p).next = p) : ∀ l, ¬ Chain m p l := by
  intro l
  induction l with
  | nil => exact fun h => hp h
  | cons a l ih =>
    intro h
    obtain ⟨h1, _, h3⟩ := h
    rw [← h1, hnext] at h3
    exact ih h3

theorem total_loop_self_loop {m : Nat → block_t} {p : Nat} (hp : p ≠ NULL)
    (hnext : (m p).next = p) :
    ∀ fuel res, get_total_free_size_loop m fuel p res = none := by
  intro fuel
  induction fuel with
  | zero => intro res; simp [get_total_free_size_loop, hp]
  | succ fuel ih =>
    intro res
    rw [get_total_free_size_loop, if_neg hp, hnext]
    exact ih _

theorem total_free_size_wf {s : Heap} {L : List Blk} (hwf : WF s L) {fuel : Nat}
    (hfuel : L.length ≤ fuel) : get_total_free_size fuel s = some (free_bytes L) := by
  have h1 := layout_free_bytes hwf.layout
  have h2 := hwf.brk_le
  have h3 := hwf.brk_max_lt
  unfold get_total_free_size
  rw [hwf.rep.2.1, total_loop_spec s.mem L NULL fuel 0 hwf.rep.1 hfuel (by decide),
    Nat.zero_add, Nat.mod_eq_of_lt (by omega)]

/-- C19, amended. In every state reachable from the empty arena by
`ff_malloc`, `bf_malloc`, `ff_free` and `bf_free` calls, each allocation
requesting fewer than `2 ^ 63 - sizeof(block_t)` bytes and each release given
a currently live pointer, the memory holds a block list `L` with: `head` is
`NULL` iff `tail` is `NULL`; when the list is not empty, `head->prev` and
`tail->next` are `NULL`; every block `b` with successor `n` has
`b->next == n` and `n->prev == b`; following `next` from `head` visits exactly
the blocks of `L`, which are pairwise distinct, ends at `tail`, and every scan
(`find_ff`, `find_bf`, `get_total_free_size`,
`get_largest_free_data_segment_size`) returns after one round per block. -/
theorem list_well_formed (s : Heap) (live : List Nat) (hreach : Reach REQUEST_LIMIT s live) :
    ∃ L, Rep s L ∧
      (s.head = NULL ↔ s.tail = NULL) ∧
      (s.head ≠ NULL → (s.mem s.head).prev = NULL ∧ (s.mem s.tail).next = NULL) ∧
      List.Chain' (fun b n => (s.mem b.addr).next = n.addr ∧ (s.mem n.addr).prev = b.addr) L ∧
      Chain s.mem s.head (L.map Blk.addr) ∧
      (L.map Blk.addr).Nodup ∧
      ((L.map Blk.addr).getLast?).getD NULL = s.tail ∧
      ∀ fuel size, L.length ≤ fuel →
        (find_ff fuel s size).isSome = true ∧ (find_bf fuel s size).isSome = true ∧
        (get_total_free_size fuel s).isSome = true ∧
        (get_largest_free_data_segment_size fuel s).isSome = true := by
  obtain ⟨L, hwf0, _, _⟩ := reach_inv hreach
  have hwf : WF s L := hwf0
  have hseg : Seg s.mem NULL L NULL := hwf.rep.1
  have hhead : s.head = hd L NULL := hwf.rep.2.1
  have htail : s.tail = lastAddr NULL L := hwf.rep.2.2
  have hnodup : (L.map Blk.addr).Nodup := by
    have := layout_distinct hwf.layout
    unfold Distinct at this
    rw [List.Nodup, List.pairwise_map]
    exact this
  have hscan : ∀ fuel size, L.length ≤ fuel →
      (find_ff fuel s size).isSome = true ∧ (find_bf fuel s size).isSome = true ∧
      (get_total_free_size fuel s).isSome = true ∧
      (get_largest_free_data_segment_size fuel s).isSome = true := by
    intro fuel size hfuel
    obtain ⟨r1, e1, _⟩ := find_ff_spec s L size fuel hwf.rep hfuel
    obtain ⟨r2, e2, _⟩ := find_bf_sound s L size fuel hwf.rep hfuel
    have e3 := total_free_size_wf hwf hfuel
    have e4 : get_largest_free_data_segment_size fuel s = some (largest L) := by
      unfold get_largest_free_data_segment_size
      rw [hhead, largest_loop_spec s.mem L NULL fuel 0 hseg hfuel, Nat.zero_max]
    rw [e1, e2, e3, e4]
    exact ⟨rfl, rfl, rfl, rfl⟩
  refine ⟨L, hwf.rep, ?_, ?_, seg_links L NULL NULL hseg, rep_chain hwf.rep, hnodup, ?_, hscan⟩
  · rcases List.eq_nil_or_concat L with h | ⟨L0, z, h⟩
    · subst h
      rw [hhead, htail]
      exact ⟨fun _ => rfl, fun _ => rfl⟩
    · have hL : L = L0 ++ [z] := by rw [h, List.concat_eq_append]
      have hz := (seg_mem hseg (show z ∈ L by rw [hL]; simp)).1
      have ht : s.tail = z.addr := by rw [htail, hL, lastAddr_append]; rfl
      have hne : L ≠ [] := by rw [hL]; simp
      have hh : s.head ≠ NULL := fun h0 => by
        cases L with
        | nil => exact hne rfl
        | cons x L1 =>
          have hx : s.head = x.addr := hhead
          exact hseg.1 (by rw [← hx]; exact h0)
      rw [ht]
      exact ⟨fun h0 => absurd h0 hh, fun h0 => absurd h0 hz⟩
  · intro hh
    rcases List.eq_nil_or_concat L with h | ⟨L0, z, h⟩
    · subst h
      exact absurd hhead hh
    · have hL : L = L0 ++ [z] := by rw [h, List.concat_eq_append]
      have ht : s.tail = z.addr := by rw [htail, hL, lastAddr_append]; rfl
      have hseg1 : Seg s.mem NULL (L0 ++ z :: []) NULL := by rw [← hL]; exact hseg
      have hz := seg_record hseg1 z.addr z.size z.isFREE rfl
      refine ⟨?_, ?_⟩
      · cases L with
        | nil => exact absurd hhead hh
        | cons x L1 =>
          have hx : s.head = x.addr := hhead
          rw [hx, hseg.2.1]
      · rw [ht, hz]; rfl
  · rcases List.eq_nil_or_concat L with h | ⟨L0, z, h⟩
    · subst h
      rw [htail]; rfl
    · have hL : L = L0 ++ [z] := by rw [h, List.concat_eq_append]
      have ht : s.tail = z.addr := by rw [htail, hL, lastAddr_append]; rfl
      rw [ht, hL, List.map_append, List.map_singleton, List.getLast?_append_of_ne_nil _ (by simp)]
      rfl

/-- Witness for C19 (amended): the state after `sandwich_calls`. -/
theorem list_well_formed_witness :
    Reach REQUEST_LIMIT (after REQUEST_LIMIT sandwich_calls).1
        (after REQUEST_LIMIT sandwich_calls).2 ∧
      ∃ L, Rep (after REQUEST_LIMIT sandwich_calls).1 L ∧
        Chain (after REQUEST_LIMIT sandwich_calls).1.mem
          (after REQUEST_LIMIT sandwich_calls).1.head (L.map Blk.addr) ∧
        (L.map Blk.addr).Nodup :=
  ⟨reach_after _ _ (by decide),
    (list_well_formed _ _ (reach_after REQUEST_LIMIT sandwich_calls (by decide))).imp
      (fun _ h => ⟨h.1, h.2.2.2.2.1, h.2.2.2.2.2.1⟩)⟩

/-- C19 as stated fails. `ff_malloc(2 ^ 64 - 32)` on the empty arena computes
`size + sizeof(block_t) = 0`, so `sbrk(0)` leaves the break at 4096 and the
block is recorded there; the next `ff_malloc(8)` gets the same address 4096
from `sbrk` and appends the block to itself: `tail->next = block` and
`block->prev = tail` make the header at 4096 its own successor and
predecessor. `head->prev` and `tail->next` are not `NULL`, no finite walk from
`head` reaches `NULL`, and the scan of `get_total_free_size` never returns. -/
theorem list_cycle_after_wrap :
    Reach WORD (after WORD cycle_calls).1 (after WORD cycle_calls).2 ∧
      (after WORD cycle_calls).1.head = 4096 ∧ (after WORD cycle_calls).1.tail = 4096 ∧
      ((after WORD cycle_calls).1.mem 4096).next = 4096 ∧
      ((after WORD cycle_calls).1.mem 4096).prev = 4096 ∧
      (¬ ∃ l, Chain (after WORD cycle_calls).1.mem (after WORD cycle_calls).1.head l) ∧
      ¬ ∃ fuel, (get_total_free_size fuel (after WORD cycle_calls).1).isSome = true := by
  have hhead : (after WORD cycle_calls).1.head = 4096 := by decide
  have hnext : ((after WORD cycle_calls).1.mem 4096).next = 4096 := by decide
  refine ⟨reach_after _ _ (by decide), hhead, by decide, hnext, by decide, ?_, ?_⟩
  · rintro ⟨l, hl⟩
    rw [hhead] at hl
    exact chain_self_loop (by decide) hnext l hl
  · rintro ⟨fuel, hf⟩
    unfold get_total_free_size at hf
    rw [hhead, total_loop_self_loop (by decide) hnext fuel 0] at hf
    cases hf

/-! ## Release accounting (C20) -/

theorem free_bytes_append (A B : List Blk) :
    free_bytes (A ++ B) = free_bytes A + free_bytes B := by
  induction A with
  | nil => simp [free_bytes]
  | cons x A ih =>
    rw [List.cons_append, free_bytes_cons, free_bytes_cons, ih]
    omega

theorem free_bytes_free (x : Blk) (L : List Blk) (h : x.isFREE = 1) :
    free_bytes (x :: L) = x.size + header_size + free_bytes L := by
  rw [free_bytes_cons, if_pos h]

theorem free_bytes_used (x : Blk) (L : List Blk) (h : x.isFREE = 0) :
    free_bytes (x :: L) = free_bytes L := by
  rw [free_bytes_cons, if_neg (by rw [h]; decide), Nat.zero_add]

/-- C20. In every well-formed state, releasing the payload pointer of a
block `t` of the list that is in use (`ff_free` or `bf_free`) increases the
result of `get_total_free_size` by exactly `t.size + sizeof(block_t)`,
whether `t` is merged with no, one or two free neighbours. -/
theorem release_accounting (s : Heap) (L1 L2 : List Blk) (t : Blk) (fuel : Nat)
    (hwf : WF s (L1 ++ t :: L2)) (ht : t.isFREE = 0)
    (hfuel : (L1 ++ t :: L2).length ≤ fuel) :
    get_total_free_size fuel s = some (free_bytes (L1 ++ t :: L2)) ∧
      get_total_free_size fuel (ff_free s (t.addr + header_size)) =
        some (free_bytes (L1 ++ t :: L2) + t.size + header_size) ∧
      get_total_free_size fuel (bf_free s (t.addr + header_size)) =
        some (free_bytes (L1 ++ t :: L2) + t.size + header_size) := by
  have hff : ff_free s (t.addr + header_size) = free_blocks s (t.addr + header_size) := rfl
  have hbf : bf_free s (t.addr + header_size) = free_blocks s (t.addr + header_size) := rfl
  rw [hff, hbf]
  obtain ⟨u, S, P, M, hfwd, hbwd, hwf1⟩ := free_blocks_spec hwf
  have h1 : u.isFREE = 1 ∧ S.length ≤ L2.length ∧
      u.size + header_size + free_bytes S = t.size + header_size + free_bytes L2 := by
    rcases hfwd with ⟨e1, e2, _⟩ | ⟨c, e1, e2, e3⟩
    · subst e1 e2
      exact ⟨rfl, le_refl _, rfl⟩
    · subst e1 e3
      refine ⟨rfl, by simp, ?_⟩
      rw [free_bytes_free c S e2]
      show t.size + c.size + header_size + header_size + free_bytes S = _
      omega
  have h2 : M.isFREE = 1 ∧ P.length ≤ L1.length ∧
      free_bytes P + (M.size + header_size) = free_bytes L1 + (u.size + header_size) := by
    rcases hbwd with ⟨e1, e2, _⟩ | ⟨a, e1, e2, e3⟩
    · subst e1 e2
      exact ⟨h1.1, le_refl _, rfl⟩
    · subst e1 e3
      refine ⟨rfl, by simp, ?_⟩
      rw [free_bytes_append, free_bytes_free a [] e2]
      show free_bytes P + (a.size + u.size + header_size + header_size) = _
      have : free_bytes ([] : List Blk) = 0 := rfl
      omega
  have hlen : (P ++ M :: S).length ≤ fuel := by
    simp only [List.length_append, List.length_cons] at hfuel ⊢
    omega
  have hsum : free_bytes (P ++ M :: S) = free_bytes (L1 ++ t :: L2) + t.size + header_size := by
    rw [free_bytes_append, free_bytes_append, free_bytes_free M S h2.1, free_bytes_used t L2 ht]
    omega
  rw [total_free_size_wf hwf hfuel, total_free_size_wf hwf1 hlen, hsum]
  exact ⟨rfl, rfl, rfl⟩

/-- Witness for C20: after `sandwich_calls` the block at 4176 (8 bytes, in
use) lies between two free blocks of 8 bytes; releasing it takes the total
from 80 to 120. -/
theorem release_accounting_witness :
    WF (after REQUEST_LIMIT sandwich_calls).1
        ([⟨4096, 8, 1⟩] ++ ⟨4176, 8, 0⟩ :: [⟨4256, 8, 1⟩, ⟨4336, 8, 0⟩]) ∧
      get_total_free_size 4 (after REQUEST_LIMIT sandwich_calls).1 = some 80 ∧
      get_total_free_size 4 (ff_free (after REQUEST_LIMIT sandwich_calls).1 4208) = some 120 ∧
      get_total_free_size 4 (ff_free (after REQUEST_LIMIT sandwich_calls).1 (4176 + header_size)) =
        some (free_bytes ([⟨4096, 8, 1⟩] ++ ⟨4176, 8, 0⟩ :: [⟨4256, 8, 1⟩, ⟨4336, 8, 0⟩])
          + 8 + header_size) :=
  ⟨by decide, by decide, by decide,
    (release_accounting (after REQUEST_LIMIT sandwich_calls).1 [⟨4096, 8, 1⟩]
      [⟨4256, 8, 1⟩, ⟨4336, 8, 0⟩] ⟨4176, 8, 0⟩ 4 (by decide) (by decide) (by decide)).2.1⟩

end MyMalloc
